import Mathlib

/-!
Verification of the protolanguage reconstruction pipeline.

This file gives a shallow embedding, in Lean 4, of the core data model and
algorithms of the repository (features, phonemes, lexemes, languages, the
named distance matrix, the phoneme/lexeme/language distance functions, the
IPA parsing pipeline, and the proto-language reconstructor), and proves or
refutes the frozen specification claims about them.

Modelling conventions:
  * Python floats are modelled as rationals.
  * A Python set is modelled as the list of its elements in (arbitrary)
    iteration order; set membership and equality use the element equality
    of the source (for features: equality by code).
  * Fallible code (KeyError, ValueError, ZeroDivisionError, missing index)
    is modelled with Option / Except.
  * The munkres DISALLOWED sentinel is the top element of WithTop.
-/

namespace Protolang

/-- A phonetic feature (app/models/feature.py).  Python equality and hash
are by code only; the index orders features. -/
structure Feature where
  name : String
  code : String
  category : String
  index : Int
deriving DecidableEq

/-- The sentinel empty feature literal used by
Phoneme._redefine_name_and_category_attributes. -/
def emptyFeature : Feature := ⟨"", "X", "", 0⟩

/-- Feature.__eq__ : equality by code only. -/
def featBeq (a b : Feature) : Bool := a.code == b.code

/-- Membership of a feature in a Python feature set (hash/eq by code). -/
def featMem (f : Feature) (l : List Feature) : Bool := l.any (featBeq f)

/-- Subset test over feature sets (comparison by code). -/
def featSubset (l1 l2 : List Feature) : Bool := l1.all (fun f => featMem f l2)

/-- Python set equality of two feature sets (element equality by code). -/
def featSetEq (l1 l2 : List Feature) : Bool := featSubset l1 l2 && featSubset l2 l1

/-- Python set difference of feature sets (element equality by code). -/
def featDiff (l1 l2 : List Feature) : List Feature :=
  l1.filter (fun f => !(featMem f l2))

/-- A phoneme (app/models/phoneme.py): a set of features (kept here in its
iteration order) plus an IPA representation string. -/
structure Phoneme where
  features : List Feature
  representation : String := ""
deriving DecidableEq

/-- Phoneme.__eq__ : equality by feature set. -/
def phonemeFeatEq (p q : Phoneme) : Bool := featSetEq p.features q.features

/-- The fixed category list from app/data/pickles.py. -/
def feature_categories : List String :=
  ["place", "secondary_place", "manner", "secondary_manner", "airflow"]

/-- The per-category feature list computed by
Phoneme._redefine_name_and_category_attributes:
[ft for ft in self.features if ft.category == category]. -/
def similarFeatures (p : Phoneme) (category : String) : List Feature :=
  p.features.filter (fun ft => ft.category == category)

/-- The per-category primary attribute as the code computes it:
similar_features[0] if nonempty, else the sentinel Feature('', 'X', '', 0).
The list is in set-iteration order; the code does not sort it. -/
def primaryFeature (p : Phoneme) (category : String) : Feature :=
  (similarFeatures p category).headD emptyFeature

/-- Modelled from the spec: the primary feature as the specification
describes it, the member of the category's feature list with the smallest
index, or the empty sentinel when the category is absent. -/
def minIndexFeature (p : Phoneme) (category : String) : Feature :=
  match similarFeatures p category with
  | [] => emptyFeature
  | f :: fs => fs.foldl (fun acc g => if g.index < acc.index then g else acc) f

/-! ### Phoneme-pair distance (app/operations/phoneme.py) -/

/-- Feature.distance_to with a default: the asymmetric feature distance
oracle value at (self.code, other.code) when present, else the default.
The default used by calculate_phoneme_distance is DISALLOWED, modelled as
the top element. -/
def distance_to (afdm : String → String → Option ℚ) (f1 f2 : Feature) : WithTop ℚ :=
  match afdm f1.code f2.code with
  | some q => (q : WithTop ℚ)
  | none => ⊤

/-- Cost of one row of an assignment: the entry of the row at the assigned
column (top if out of range). -/
def rowCost (row : List (WithTop ℚ)) (j : Nat) : WithTop ℚ := row.getD j ⊤

/-- Total cost of a perfect matching of the square cost matrix, where the
assignment list gives the column matched to each row in order. -/
def matchingCost (mat : List (List (WithTop ℚ))) (assignment : List Nat) : WithTop ℚ :=
  ((mat.zip assignment).map (fun rc => rowCost rc.1 rc.2)).sum

/-- The exact minimum-cost perfect matching value of a square cost matrix:
the minimum of matchingCost over all permutations of the column indices.
This models a correct Hungarian-algorithm solver (the munkres library is
external to the repository); DISALLOWED cells are top and hence never
selected by a finite-cost matching. -/
def minAssignment (mat : List (List (WithTop ℚ))) : WithTop ℚ :=
  (((List.range mat.length).permutations').map (matchingCost mat)).foldr min ⊤

/-- calculate_phoneme_distance (app/operations/phoneme.py): 0 for equal
phonemes, otherwise the assignment value of the padded symmetric-difference
cost matrix.  The empty feature (app/data/features.py) is a parameter. -/
def calculate_phoneme_distance (afdm : String → String → Option ℚ) (emptyF : Feature)
    (ph1 ph2 : Phoneme) : WithTop ℚ :=
  if phonemeFeatEq ph1 ph2 then 0
  else
    let set1 := featDiff ph1.features ph2.features
    let set2 := featDiff ph2.features ph1.features
    let list1 := set1 ++ List.replicate set2.length emptyF
    let list2 := set2 ++ List.replicate set1.length emptyF
    let matrix := list1.map (fun f1 => list2.map (fun f2 => distance_to afdm f1 f2))
    minAssignment matrix

/-! ### NamedMatrix (app/models/named_matrix.py) -/

/-- The named square matrix container.  row_names/column_names are the
symbolic keys, row_items/column_items the payloads handed to the populator,
and matrix the dense grid. -/
structure NamedMatrix (α β γ : Type) where
  column_names : List α
  row_names : List α
  row_items : List β
  column_items : List β
  matrix : List (List γ)

/-- NamedMatrix.__init__, non-vectorized fill path:
matrix = [[function(row_item, column_item) for row_item in row_items]
          for column_item in column_items]. -/
def NamedMatrix.make (column_names row_names : List α) (f : β → β → γ)
    (column_items row_items : List β) : NamedMatrix α β γ :=
  { column_names := column_names
    row_names := row_names
    row_items := row_items
    column_items := column_items
    matrix := column_items.map (fun column_item =>
      row_items.map (fun row_item => f row_item column_item)) }

/-- NamedMatrix.__init__, vectorized fill path:
broadcast_function(np_row_items, np_column_items[:, None]) broadcasts the
shapes (n,) and (m,1) to an (m,n) grid whose entry at [i][j] is
function(row_items[j], column_items[i]). -/
def NamedMatrix.makeVectorized (column_names row_names : List α) (f : β → β → γ)
    (column_items row_items : List β) : NamedMatrix α β γ :=
  { column_names := column_names
    row_names := row_names
    row_items := row_items
    column_items := column_items
    matrix := column_items.map (fun column_item =>
      row_items.map (fun row_item => f row_item column_item)) }

/-- NamedMatrix.__init__ with the items defaulted to the name lists
(self.row_items = self.row_names if not row_items else row_items). -/
def NamedMatrix.makeDefaultItems (column_names row_names : List α) (f : α → α → γ) :
    NamedMatrix α α γ :=
  NamedMatrix.make column_names row_names f column_names row_names

/-- NamedMatrix.__getitem__((r, c)) =
matrix[row_index_map[r], column_index_map[c]]; a missing key or index is a
Python KeyError / IndexError, modelled by none.  The index maps send a key
to its position in the respective name list (keys are required unique). -/
def NamedMatrix.get [BEq α] (M : NamedMatrix α β γ) (r c : α) : Option γ := do
  let i ← M.row_names.indexOf? r
  let j ← M.column_names.indexOf? c
  let row ← M.matrix[i]?
  row[j]?

/-! ### Helper lemmas for the assignment minimum -/

theorem foldr_min_le_of_mem {l : List (WithTop ℚ)} {x : WithTop ℚ} (hx : x ∈ l) :
    l.foldr min ⊤ ≤ x := by
  induction l with
  | nil => cases hx
  | cons a l ih =>
    rcases List.mem_cons.mp hx with h | h
    · subst h; exact min_le_left _ _
    · exact le_trans (min_le_right _ _) (ih h)

theorem foldr_min_eq_top_or_mem (l : List (WithTop ℚ)) :
    l.foldr min ⊤ = ⊤ ∨ l.foldr min ⊤ ∈ l := by
  induction l with
  | nil => exact Or.inl rfl
  | cons a l ih =>
    rcases le_total a (l.foldr min ⊤) with h | h
    · right
      simp only [List.foldr_cons, min_eq_left h]
      exact List.mem_cons_self a l
    · rcases ih with htop | hmem
      · right
        simp only [List.foldr_cons, htop, min_eq_left (le_top (a := a))]
        exact List.mem_cons_self a l
      · right
        simp only [List.foldr_cons, min_eq_right h]
        exact List.mem_cons_of_mem a hmem

theorem featSubset_refl (l : List Feature) : featSubset l l = true := by
  apply List.all_eq_true.mpr
  intro f hf
  exact List.any_eq_true.mpr ⟨f, hf, by simp [featBeq]⟩

theorem phonemeFeatEq_refl (p : Phoneme) : phonemeFeatEq p p = true := by
  simp [phonemeFeatEq, featSetEq, featSubset_refl]

/-- The first padded list of calculate_phoneme_distance:
list1 = list(set1) + [empty_feature] * len(set2). -/
def padList1 (emptyF : Feature) (ph1 ph2 : Phoneme) : List Feature :=
  featDiff ph1.features ph2.features ++
    List.replicate (featDiff ph2.features ph1.features).length emptyF

/-- The second padded list of calculate_phoneme_distance:
list2 = list(set2) + [empty_feature] * len(set1). -/
def padList2 (emptyF : Feature) (ph1 ph2 : Phoneme) : List Feature :=
  featDiff ph2.features ph1.features ++
    List.replicate (featDiff ph1.features ph2.features).length emptyF

/-- The cost matrix of calculate_phoneme_distance:
[[f1.distance_to(f2, default=DISALLOWED) for f2 in list2] for f1 in list1]. -/
def costMatrix (afdm : String → String → Option ℚ) (emptyF : Feature)
    (ph1 ph2 : Phoneme) : List (List (WithTop ℚ)) :=
  (padList1 emptyF ph1 ph2).map (fun f1 =>
    (padList2 emptyF ph1 ph2).map (fun f2 => distance_to afdm f1 f2))

theorem calculate_phoneme_distance_of_ne (afdm : String → String → Option ℚ)
    (emptyF : Feature) (ph1 ph2 : Phoneme) (h : phonemeFeatEq ph1 ph2 = false) :
    calculate_phoneme_distance afdm emptyF ph1 ph2 =
      minAssignment (costMatrix afdm emptyF ph1 ph2) := by
  simp [calculate_phoneme_distance, h, costMatrix, padList1, padList2]

theorem costMatrix_length (afdm : String → String → Option ℚ) (emptyF : Feature)
    (ph1 ph2 : Phoneme) :
    (costMatrix afdm emptyF ph1 ph2).length =
      (featDiff ph1.features ph2.features).length +
        (featDiff ph2.features ph1.features).length := by
  simp [costMatrix, padList1]

/-- C4: calculate_phoneme_distance returns 0 on equal feature sets (in
particular on p itself); otherwise it pads both symmetric-difference lists
to length |A|+|B| with the empty sentinel, builds the cost matrix of
Feature.distance_to values with DISALLOWED (top) as default, and returns
the minimum total cost over all perfect matchings of that matrix: the
result is a lower bound of the cost of every matching and, unless
infeasible (top), is attained by some matching. -/
theorem c4_phoneme_distance (afdm : String → String → Option ℚ) (emptyF : Feature)
    (ph1 ph2 : Phoneme) :
    calculate_phoneme_distance afdm emptyF ph1 ph1 = 0 ∧
    (phonemeFeatEq ph1 ph2 = true → calculate_phoneme_distance afdm emptyF ph1 ph2 = 0) ∧
    (phonemeFeatEq ph1 ph2 = false →
      (padList1 emptyF ph1 ph2).length =
        (featDiff ph1.features ph2.features).length +
          (featDiff ph2.features ph1.features).length ∧
      (padList2 emptyF ph1 ph2).length =
        (featDiff ph1.features ph2.features).length +
          (featDiff ph2.features ph1.features).length ∧
      (∀ σ : List Nat, σ.Perm (List.range ((featDiff ph1.features ph2.features).length +
          (featDiff ph2.features ph1.features).length)) →
        calculate_phoneme_distance afdm emptyF ph1 ph2 ≤
          matchingCost (costMatrix afdm emptyF ph1 ph2) σ) ∧
      (calculate_phoneme_distance afdm emptyF ph1 ph2 = ⊤ ∨
        ∃ σ : List Nat, σ.Perm (List.range ((featDiff ph1.features ph2.features).length +
            (featDiff ph2.features ph1.features).length)) ∧
          calculate_phoneme_distance afdm emptyF ph1 ph2 =
            matchingCost (costMatrix afdm emptyF ph1 ph2) σ)) := by
  refine ⟨?_, ?_, ?_⟩
  · simp [calculate_phoneme_distance, phonemeFeatEq_refl]
  · intro h; simp [calculate_phoneme_distance, h]
  · intro h
    refine ⟨by simp [padList1], by simp [padList2]; omega, ?_, ?_⟩
    · intro σ hσ
      rw [calculate_phoneme_distance_of_ne afdm emptyF ph1 ph2 h]
      apply foldr_min_le_of_mem
      apply List.mem_map_of_mem
      rw [costMatrix_length]
      exact List.mem_permutations'.mpr hσ
    · rw [calculate_phoneme_distance_of_ne afdm emptyF ph1 ph2 h]
      rcases foldr_min_eq_top_or_mem
        (((List.range (costMatrix afdm emptyF ph1 ph2).length).permutations').map
          (matchingCost (costMatrix afdm emptyF ph1 ph2))) with htop | hmem
      · exact Or.inl htop
      · right
        rcases List.mem_map.mp hmem with ⟨σ, hσ, hval⟩
        refine ⟨σ, ?_, hval.symm⟩
        rw [costMatrix_length] at hσ
        exact List.mem_permutations'.mp hσ

/-- Concrete data for the C4 witness. -/
def afdmW : String → String → Option ℚ :=
  fun a b => if a == "AA" && b == "X" then some 3
    else if a == "X" && b == "BB" then some 5 else none

/-- A concrete phoneme with the single feature AA. -/
def pW1 : Phoneme := ⟨[⟨"A", "AA", "place", 1⟩], "a"⟩

/-- A concrete phoneme with the single feature BB. -/
def pW2 : Phoneme := ⟨[⟨"B", "BB", "place", 2⟩], "b"⟩

/-- C4 witness: the characterization applied at a concrete unequal pair. -/
theorem c4_witness :
    phonemeFeatEq pW1 pW2 = false ∧
    calculate_phoneme_distance afdmW emptyFeature pW1 pW1 = 0 ∧
    calculate_phoneme_distance afdmW emptyFeature pW1 pW2 ≤
      matchingCost (costMatrix afdmW emptyFeature pW1 pW2) [1, 0] :=
  ⟨by decide, (c4_phoneme_distance afdmW emptyFeature pW1 pW2).1,
    ((c4_phoneme_distance afdmW emptyFeature pW1 pW2).2.2 (by decide)).2.2.1 [1, 0]
      (List.mem_permutations'.mp (by decide))⟩

/-! ### C9: the per-category primary attribute -/

/-- A place feature with index 1. -/
def f9A : Feature := ⟨"A", "AA", "place", 1⟩

/-- A place feature with index 5. -/
def f9B : Feature := ⟨"B", "BB", "place", 5⟩

/-- A phoneme whose feature set iterates the index-5 place feature before
the index-1 place feature (Python set iteration order is hash-driven and
not sorted by index). -/
def p9 : Phoneme := ⟨[f9B, f9A], ""⟩

/-- C9: the code takes similar_features[0] in set-iteration order without
sorting, so the primary place attribute is the index-5 feature, while the
claim (and the Phoneme docstring) require the smallest-index feature. -/
theorem c9_primary_not_min_index :
    primaryFeature p9 "place" = f9B ∧ minIndexFeature p9 "place" = f9A ∧ f9B ≠ f9A := by
  decide

/-! ### C1: NamedMatrix lookup orientation -/

/-- A concrete asymmetric populator. -/
def c1f : Int → Int → Int := fun x y => 2 * x + y

/-- A NamedMatrix built with row keys [0,1] (items [10,20]) and column
keys [0,1] (items [30,40]), non-vectorized fill. -/
def c1M : NamedMatrix Int Int Int := NamedMatrix.make [0, 1] [0, 1] c1f [30, 40] [10, 20]

/-- The same matrix via the vectorized fill path. -/
def c1Mvec : NamedMatrix Int Int Int :=
  NamedMatrix.makeVectorized [0, 1] [0, 1] c1f [30, 40] [10, 20]

/-- C1 counterexample: at row key 0 (row item 10) and column key 1
(column item 40) the claim predicts f(10, 40) = 60, but both fill paths
store f(20, 30) = 70 there: the populator is applied to the row-items list
indexed by the column key and the column-items list indexed by the row
key. -/
theorem c1_counterexample :
    c1M.get 0 1 = some 70 ∧ c1Mvec.get 0 1 = some 70 ∧ c1f 10 40 = 60 ∧
    c1M.get 0 1 ≠ some (c1f 10 40) ∧ c1Mvec.get 0 1 ≠ some (c1f 10 40) := by
  decide

/-- C1 amended: for every NamedMatrix, on both fill paths, the lookup
matrix[r, c] returns the populator applied to the row-items list at the
index of the column key c and the column-items list at the index of the
row key r. -/
theorem c1_get_transposed [BEq α] {β γ : Type}
    (column_names row_names : List α) (f : β → β → γ)
    (column_items row_items : List β) (r c : α) (i j : Nat)
    (hi : row_names.indexOf? r = some i) (hj : column_names.indexOf? c = some j)
    (ri ci : β) (hri : row_items[j]? = some ri) (hci : column_items[i]? = some ci) :
    (NamedMatrix.make column_names row_names f column_items row_items).get r c =
      some (f ri ci) ∧
    (NamedMatrix.makeVectorized column_names row_names f column_items row_items).get r c =
      some (f ri ci) := by
  constructor <;>
    simp [NamedMatrix.get, NamedMatrix.make, NamedMatrix.makeVectorized, hi, hj,
      List.getElem?_map, hci, hri]

/-- C1 witness: the amended statement applied at the concrete matrix. -/
theorem c1_witness :
    (NamedMatrix.make [0, 1] [0, 1] c1f [30, 40] [10, 20] : NamedMatrix Int Int Int).get 0 1 =
      some (c1f 20 30) ∧
    (NamedMatrix.makeVectorized [0, 1] [0, 1] c1f [30, 40] [10, 20] :
      NamedMatrix Int Int Int).get 0 1 = some (c1f 20 30) :=
  c1_get_transposed [0, 1] [0, 1] c1f [30, 40] [10, 20] 0 1 0 1
    (by decide) (by decide) 20 30 (by decide) (by decide)

/-! ### Lexeme distance (app/operations/lexeme.py) -/

/-- The dynamic-programming table, modelled as a total function from index
pairs to rationals (np.zeros gives the all-zero initial table). -/
def Tbl : Type := ℕ × ℕ → ℚ

/-- A single in-place assignment matrix[p] = v. -/
def updTbl (t : Tbl) (p : ℕ × ℕ) (v : ℚ) : Tbl := fun q => if q = p then v else t q

theorem updTbl_same (t : Tbl) (p : ℕ × ℕ) (v : ℚ) : updTbl t p v p = v := by
  simp [updTbl]

theorem updTbl_ne (t : Tbl) (p : ℕ × ℕ) (v : ℚ) (q : ℕ × ℕ) (h : q ≠ p) :
    updTbl t p v q = t q := by
  simp [updTbl, h]

/-- First loop body: matrix[i+1, 0] = matrix[i, 0] + D[source_phoneme, empty]. -/
def colStep (D : Phoneme → Phoneme → ℚ) (emp : Phoneme) (t : Tbl) (isp : ℕ × Phoneme) : Tbl :=
  updTbl t (isp.1 + 1, 0) (t (isp.1, 0) + D isp.2 emp)

/-- The first loop: for i, source_phoneme in enumerate(source_lexeme). -/
def fillCol (D : Phoneme → Phoneme → ℚ) (emp : Phoneme) (S : List Phoneme) (t : Tbl) : Tbl :=
  (S.enum).foldl (colStep D emp) t

/-- Second loop body: matrix[0, j+1] = matrix[0, j] + D[empty, target_phoneme]. -/
def rowStep (D : Phoneme → Phoneme → ℚ) (emp : Phoneme) (t : Tbl) (jtp : ℕ × Phoneme) : Tbl :=
  updTbl t (0, jtp.1 + 1) (t (0, jtp.1) + D emp jtp.2)

/-- The second loop: for j, target_phoneme in enumerate(target_lexeme). -/
def fillRow (D : Phoneme → Phoneme → ℚ) (emp : Phoneme) (T : List Phoneme) (t : Tbl) : Tbl :=
  (T.enum).foldl (rowStep D emp) t

/-- Main loop body: matrix[i+1, j+1] = min of the deletion, insertion and
substitution branches. -/
def innerStep (D : Phoneme → Phoneme → ℚ) (emp tp : Phoneme) (j : ℕ)
    (t : Tbl) (isp : ℕ × Phoneme) : Tbl :=
  updTbl t (isp.1 + 1, j + 1)
    (min (min (t (isp.1, j + 1) + D isp.2 emp) (t (isp.1 + 1, j) + D emp tp))
      (t (isp.1, j) + D isp.2 tp))

/-- The inner main loop: for i, source_phoneme in enumerate(source_lexeme),
for the fixed target phoneme of column j+1. -/
def fillInner (D : Phoneme → Phoneme → ℚ) (emp tp : Phoneme) (j : ℕ)
    (S : List Phoneme) (t : Tbl) : Tbl :=
  (S.enum).foldl (innerStep D emp tp j) t

/-- The outer main loop: for j, target_phoneme in enumerate(target_lexeme). -/
def fillMain (D : Phoneme → Phoneme → ℚ) (emp : Phoneme) (S T : List Phoneme)
    (t : Tbl) : Tbl :=
  (T.enum).foldl (fun t jtp => fillInner D emp jtp.2 jtp.1 S t) t

/-- calculate_lexeme_distance (app/operations/lexeme.py): fill the
(m+1)x(n+1) zero table with the three loops, return
matrix[-1][-1] / (len(source) + len(target)).  D models the phoneme
distance matrix lookup pdm[x, y], emp the empty phoneme. -/
def calculate_lexeme_distance (D : Phoneme → Phoneme → ℚ) (emp : Phoneme)
    (S T : List Phoneme) : ℚ :=
  (fillMain D emp S T (fillRow D emp T (fillCol D emp S (fun _ => 0))))
      (S.length, T.length) /
    ((S.length + T.length : ℕ) : ℚ)

/-- Modelled from the spec: the Needleman-Wunsch table M defined by the
recurrence of the claim, with M[0,0]=0, first column and row accumulated
against the empty phoneme, and the general cell the minimum of the
deletion, insertion and substitution branches. -/
def specTable (D : Phoneme → Phoneme → ℚ) (emp : Phoneme) (S T : List Phoneme) :
    ℕ → ℕ → ℚ
  | 0, 0 => 0
  | i + 1, 0 => specTable D emp S T i 0 + D (S.getD i emp) emp
  | 0, j + 1 => specTable D emp S T 0 j + D emp (T.getD j emp)
  | i + 1, j + 1 =>
      min (min (specTable D emp S T i (j + 1) + D (S.getD i emp) emp)
          (specTable D emp S T (i + 1) j + D emp (T.getD j emp)))
        (specTable D emp S T i j + D (S.getD i emp) (T.getD j emp))
  termination_by i j => (i, j)

/-- Partial sum of deletion costs over the first r source phonemes. -/
def colPartSum (D : Phoneme → Phoneme → ℚ) (emp : Phoneme) (l : List Phoneme) (r : ℕ) : ℚ :=
  ((l.take r).map (fun p => D p emp)).sum

/-- Partial sum of insertion costs over the first r target phonemes. -/
def rowPartSum (D : Phoneme → Phoneme → ℚ) (emp : Phoneme) (l : List Phoneme) (r : ℕ) : ℚ :=
  ((l.take r).map (fun p => D emp p)).sum

theorem colPartSum_succ (D : Phoneme → Phoneme → ℚ) (emp : Phoneme)
    (l : List Phoneme) (r : ℕ) (h : r < l.length) :
    colPartSum D emp l (r + 1) = colPartSum D emp l r + D (l.getD r emp) emp := by
  have ht : l.take (r + 1) = l.take r ++ [l[r]] := by
    rw [List.take_succ, List.getElem?_eq_getElem h]; rfl
  rw [colPartSum, ht, List.map_append, List.sum_append, colPartSum]
  simp [List.getD, List.getElem?_eq_getElem h]

theorem rowPartSum_succ (D : Phoneme → Phoneme → ℚ) (emp : Phoneme)
    (l : List Phoneme) (r : ℕ) (h : r < l.length) :
    rowPartSum D emp l (r + 1) = rowPartSum D emp l r + D emp (l.getD r emp) := by
  have ht : l.take (r + 1) = l.take r ++ [l[r]] := by
    rw [List.take_succ, List.getElem?_eq_getElem h]; rfl
  rw [rowPartSum, ht, List.map_append, List.sum_append, rowPartSum]
  simp [List.getD, List.getElem?_eq_getElem h]

theorem specTable_col (D : Phoneme → Phoneme → ℚ) (emp : Phoneme) (S T : List Phoneme)
    (i : ℕ) (hi : i ≤ S.length) :
    specTable D emp S T i 0 = colPartSum D emp S i := by
  induction i with
  | zero => simp [specTable, colPartSum]
  | succ i ih =>
    rw [specTable, ih (Nat.le_of_succ_le hi), colPartSum_succ D emp S i hi]

theorem specTable_row (D : Phoneme → Phoneme → ℚ) (emp : Phoneme) (S T : List Phoneme)
    (j : ℕ) (hj : j ≤ T.length) :
    specTable D emp S T 0 j = rowPartSum D emp T j := by
  induction j with
  | zero => simp [specTable, rowPartSum]
  | succ j ih =>
    rw [specTable, ih (Nat.le_of_succ_le hj), rowPartSum_succ D emp T j hj]

theorem colPartSum_cons (D : Phoneme → Phoneme → ℚ) (emp p : Phoneme)
    (l : List Phoneme) (r : ℕ) :
    colPartSum D emp (p :: l) (r + 1) = D p emp + colPartSum D emp l r := by
  simp [colPartSum]

theorem rowPartSum_cons (D : Phoneme → Phoneme → ℚ) (emp p : Phoneme)
    (l : List Phoneme) (r : ℕ) :
    rowPartSum D emp (p :: l) (r + 1) = D emp p + rowPartSum D emp l r := by
  simp [rowPartSum]

theorem fillCol_enumFrom_point (D : Phoneme → Phoneme → ℚ) (emp : Phoneme) :
    ∀ (l : List Phoneme) (k : ℕ) (t : Tbl) (a b : ℕ),
      ((l.enumFrom k).foldl (colStep D emp) t) (a, b) =
        if b = 0 ∧ k < a ∧ a ≤ k + l.length
        then t (k, 0) + colPartSum D emp l (a - k)
        else t (a, b) := by
  intro l
  induction l with
  | nil =>
    intro k t a b
    rw [List.enumFrom_nil, List.foldl_nil, if_neg]
    rintro ⟨hb, hk, ha⟩
    simp at ha
    omega
  | cons p l ih =>
    intro k t a b
    rw [List.enumFrom_cons, List.foldl_cons, ih (k + 1) (colStep D emp t (k, p)) a b]
    have hupd : colStep D emp t (k, p) = updTbl t (k + 1, 0) (t (k, 0) + D p emp) := rfl
    by_cases hb : b = 0
    · subst hb
      by_cases h2 : a ≤ k + (p :: l).length
      · by_cases h1 : k < a
        · by_cases h3 : k + 1 < a
          · rw [if_pos ⟨rfl, h3, by simp at h2 ⊢; omega⟩, if_pos ⟨rfl, h1, h2⟩, hupd,
              updTbl_same]
            have ha : a - k = (a - (k + 1)) + 1 := by omega
            rw [ha, colPartSum_cons]
            ring
          · have ha : a = k + 1 := by omega
            subst ha
            rw [if_neg (by rintro ⟨_, hc, _⟩; omega), if_pos ⟨rfl, h1, h2⟩, hupd,
              updTbl_same]
            have hone : k + 1 - k = 0 + 1 := by omega
            rw [hone, colPartSum_cons]
            simp [colPartSum]
        · rw [if_neg (by rintro ⟨_, hc, _⟩; omega), if_neg (by rintro ⟨_, hc, _⟩; omega),
            hupd, updTbl_ne]
          intro hq
          have : a = k + 1 := congrArg Prod.fst hq
          omega
      · rw [if_neg (by rintro ⟨_, _, hc⟩; simp at hc h2; omega),
          if_neg (by rintro ⟨_, _, hc⟩; exact h2 hc), hupd, updTbl_ne]
        intro hq
        have : a = k + 1 := congrArg Prod.fst hq
        simp at h2
        omega
    · rw [if_neg (by rintro ⟨hc, _, _⟩; exact hb hc),
        if_neg (by rintro ⟨hc, _, _⟩; exact hb hc), hupd, updTbl_ne]
      intro hq
      exact hb (congrArg Prod.snd hq)

theorem fillRow_enumFrom_point (D : Phoneme → Phoneme → ℚ) (emp : Phoneme) :
    ∀ (l : List Phoneme) (k : ℕ) (t : Tbl) (a b : ℕ),
      ((l.enumFrom k).foldl (rowStep D emp) t) (a, b) =
        if a = 0 ∧ k < b ∧ b ≤ k + l.length
        then t (0, k) + rowPartSum D emp l (b - k)
        else t (a, b) := by
  intro l
  induction l with
  | nil =>
    intro k t a b
    rw [List.enumFrom_nil, List.foldl_nil, if_neg]
    rintro ⟨hb, hk, ha⟩
    simp at ha
    omega
  | cons p l ih =>
    intro k t a b
    rw [List.enumFrom_cons, List.foldl_cons, ih (k + 1) (rowStep D emp t (k, p)) a b]
    have hupd : rowStep D emp t (k, p) = updTbl t (0, k + 1) (t (0, k) + D emp p) := rfl
    by_cases ha : a = 0
    · subst ha
      by_cases h2 : b ≤ k + (p :: l).length
      · by_cases h1 : k < b
        · by_cases h3 : k + 1 < b
          · rw [if_pos ⟨rfl, h3, by simp at h2 ⊢; omega⟩, if_pos ⟨rfl, h1, h2⟩, hupd,
              updTbl_same]
            have hb : b - k = (b - (k + 1)) + 1 := by omega
            rw [hb, rowPartSum_cons]
            ring
          · have hb : b = k + 1 := by omega
            subst hb
            rw [if_neg (by rintro ⟨_, hc, _⟩; omega), if_pos ⟨rfl, h1, h2⟩, hupd,
              updTbl_same]
            have hone : k + 1 - k = 0 + 1 := by omega
            rw [hone, rowPartSum_cons]
            simp [rowPartSum]
        · rw [if_neg (by rintro ⟨_, hc, _⟩; omega), if_neg (by rintro ⟨_, hc, _⟩; omega),
            hupd, updTbl_ne]
          intro hq
          have : b = k + 1 := congrArg Prod.snd hq
          omega
      · rw [if_neg (by rintro ⟨_, _, hc⟩; simp at hc h2; omega),
          if_neg (by rintro ⟨_, _, hc⟩; exact h2 hc), hupd, updTbl_ne]
        intro hq
        have : b = k + 1 := congrArg Prod.snd hq
        simp at h2
        omega
    · rw [if_neg (by rintro ⟨hc, _, _⟩; exact ha hc),
        if_neg (by rintro ⟨hc, _, _⟩; exact ha hc), hupd, updTbl_ne]
      intro hq
      exact ha (congrArg Prod.fst hq)

/-- The table after the first two loops: the first column and first row
hold the accumulated deletion/insertion sums, everything else is zero. -/
theorem base_point (D : Phoneme → Phoneme → ℚ) (emp : Phoneme) (S T : List Phoneme)
    (a b : ℕ) :
    (fillRow D emp T (fillCol D emp S (fun _ => 0))) (a, b) =
      if b = 0 ∧ a ≤ S.length then specTable D emp S T a 0
      else if a = 0 ∧ b ≤ T.length then specTable D emp S T 0 b
      else 0 := by
  have hcol : ∀ a b : ℕ, (fillCol D emp S (fun _ => 0)) (a, b) =
      if b = 0 ∧ 0 < a ∧ a ≤ S.length then colPartSum D emp S a else 0 := by
    intro a b
    rw [fillCol, show S.enum = S.enumFrom 0 from rfl, fillCol_enumFrom_point]
    simp
  rw [fillRow, show T.enum = T.enumFrom 0 from rfl, fillRow_enumFrom_point]
  simp only [Nat.zero_add, Nat.sub_zero]
  by_cases hrow : a = 0 ∧ 0 < b ∧ b ≤ T.length
  · obtain ⟨ha0, hb1, hbn⟩ := hrow
    subst ha0
    rw [if_pos ⟨rfl, hb1, hbn⟩, hcol, if_neg (by rintro ⟨_, hc, _⟩; omega),
      if_neg (by rintro ⟨hc, _⟩; omega), if_pos ⟨rfl, hbn⟩,
      specTable_row D emp S T b hbn]
    ring
  · rw [if_neg hrow, hcol]
    by_cases hc1 : b = 0 ∧ 0 < a ∧ a ≤ S.length
    · obtain ⟨hb0, ha1, ham⟩ := hc1
      subst hb0
      rw [if_pos ⟨rfl, ha1, ham⟩, if_pos ⟨rfl, ham⟩, specTable_col D emp S T a ham]
    · rw [if_neg hc1]
      by_cases hc2 : b = 0 ∧ a ≤ S.length
      · obtain ⟨hb0, ham⟩ := hc2
        subst hb0
        have ha0 : a = 0 := by
          by_contra hne
          exact hc1 ⟨rfl, Nat.pos_of_ne_zero hne, ham⟩
        subst ha0
        rw [if_pos ⟨rfl, ham⟩]
        simp [specTable]
      · rw [if_neg hc2]
        by_cases hc3 : a = 0 ∧ b ≤ T.length
        · obtain ⟨ha0, hbn⟩ := hc3
          subst ha0
          have hb0 : b ≠ 0 := by
            intro h
            exact hc2 ⟨h, Nat.zero_le _⟩
          exact absurd ⟨rfl, Nat.pos_of_ne_zero hb0, hbn⟩ hrow
        · rw [if_neg hc3]

/-- Invariant of the inner main loop: folding the remaining source suffix
into column j+1 leaves every cell outside that column segment unchanged and
makes the column agree with the specification table. -/
theorem fillInner_invariant (D : Phoneme → Phoneme → ℚ) (emp : Phoneme)
    (S T : List Phoneme) (j : ℕ) (hj : j < T.length) :
    ∀ (l : List Phoneme) (k : ℕ) (t : Tbl),
      l = S.drop k →
      (∀ a, a ≤ S.length → t (a, 0) = specTable D emp S T a 0) →
      (∀ b, b ≤ T.length → t (0, b) = specTable D emp S T 0 b) →
      (∀ a b, 1 ≤ a → a ≤ S.length → 1 ≤ b → b ≤ j → t (a, b) = specTable D emp S T a b) →
      (∀ a, 1 ≤ a → a ≤ k → t (a, j + 1) = specTable D emp S T a (j + 1)) →
      ((∀ a b, ¬(b = j + 1 ∧ k + 1 ≤ a ∧ a ≤ k + l.length) →
          ((l.enumFrom k).foldl (innerStep D emp (T.getD j emp) j) t) (a, b) = t (a, b)) ∧
        (∀ a, 1 ≤ a → a ≤ k + l.length →
          ((l.enumFrom k).foldl (innerStep D emp (T.getD j emp) j) t) (a, j + 1) =
            specTable D emp S T a (j + 1))) := by
  intro l
  induction l with
  | nil =>
    intro k t _ _ _ _ hcol
    rw [List.enumFrom_nil, List.foldl_nil]
    exact ⟨fun a b _ => rfl, fun a h1 h2 => hcol a h1 (by simpa using h2)⟩
  | cons p l ih =>
    intro k t hdrop h0 hrow0 hfin hcol
    have hk : k < S.length := by
      by_contra hge
      rw [List.drop_eq_nil_iff.mpr (by omega)] at hdrop
      exact List.cons_ne_nil p l hdrop
    have hcons : S[k] :: S.drop (k + 1) = S.drop k := List.getElem_cons_drop S k hk
    rw [← hdrop] at hcons
    obtain ⟨hp', hl'⟩ := List.cons.inj hcons
    have hp : p = S[k] := hp'.symm
    have hl : l = S.drop (k + 1) := hl'.symm
    rw [List.enumFrom_cons, List.foldl_cons]
    have hSgetD : S.getD k emp = S[k] := by
      simp [List.getD_eq_getElem?_getD, List.getElem?_eq_getElem hk]
    have hstep : innerStep D emp (T.getD j emp) j t (k, p) =
        updTbl t (k + 1, j + 1) (specTable D emp S T (k + 1) (j + 1)) := by
      rw [innerStep]
      have hread1 : t (k, j + 1) = specTable D emp S T k (j + 1) := by
        rcases Nat.eq_zero_or_pos k with hk0 | hk1
        · subst hk0; exact hrow0 (j + 1) (by omega)
        · exact hcol k hk1 le_rfl
      have hread2 : t (k + 1, j) = specTable D emp S T (k + 1) j := by
        rcases Nat.eq_zero_or_pos j with hj0 | hj1
        · subst hj0; exact h0 (k + 1) (by omega)
        · exact hfin (k + 1) j (by omega) (by omega) hj1 le_rfl
      have hread3 : t (k, j) = specTable D emp S T k j := by
        rcases Nat.eq_zero_or_pos k with hk0 | hk1
        · subst hk0; exact hrow0 j (by omega)
        · rcases Nat.eq_zero_or_pos j with hj0 | hj1
          · subst hj0; exact h0 k (by omega)
          · exact hfin k j hk1 (by omega) hj1 le_rfl
      rw [show specTable D emp S T (k + 1) (j + 1) =
          min (min (specTable D emp S T k (j + 1) + D (S.getD k emp) emp)
            (specTable D emp S T (k + 1) j + D emp (T.getD j emp)))
            (specTable D emp S T k j + D (S.getD k emp) (T.getD j emp)) from by
          rw [specTable]]
      rw [hread1, hread2, hread3, hSgetD, hp]
    rw [hstep]
    have ih' := ih (k + 1) (updTbl t (k + 1, j + 1) (specTable D emp S T (k + 1) (j + 1)))
      hl
      (fun a ha => by
        rw [updTbl_ne]
        · exact h0 a ha
        · intro hq
          exact Nat.succ_ne_zero j (congrArg Prod.snd hq).symm)
      (fun b hb => by
        rw [updTbl_ne]
        · exact hrow0 b hb
        · intro hq
          exact Nat.succ_ne_zero k (congrArg Prod.fst hq).symm)
      (fun a b h1 h2 h3 h4 => by
        rw [updTbl_ne]
        · exact hfin a b h1 h2 h3 h4
        · intro hq
          have := congrArg Prod.snd hq
          simp at this
          omega)
      (fun a h1 h2 => by
        rcases Nat.lt_or_ge a (k + 1) with hlt | hge
        · rw [updTbl_ne]
          · exact hcol a h1 (by omega)
          · intro hq
            have := congrArg Prod.fst hq
            simp at this
            omega
        · have ha : a = k + 1 := by omega
          subst ha
          exact updTbl_same t _ _)
    refine ⟨?_, ?_⟩
    · intro a b hout
      rw [ih'.1 a b (by
        rintro ⟨hbeq, hge, hle⟩
        exact hout ⟨hbeq, by omega, by simp; omega⟩)]
      rw [updTbl_ne]
      intro hq
      have h1 := congrArg Prod.fst hq
      have h2 := congrArg Prod.snd hq
      simp at h1 h2
      exact hout ⟨h2, by omega, by simp; omega⟩
    · intro a h1 h2
      exact ih'.2 a h1 (by simp at h2 ⊢; omega)

/-- Invariant of the outer main loop: after processing the remaining
target suffix, all columns up to the processed bound agree with the
specification table, and the first row and column are untouched. -/
theorem fillMain_invariant (D : Phoneme → Phoneme → ℚ) (emp : Phoneme)
    (S T : List Phoneme) :
    ∀ (lT : List Phoneme) (j : ℕ) (t : Tbl),
      lT = T.drop j →
      (∀ a, a ≤ S.length → t (a, 0) = specTable D emp S T a 0) →
      (∀ b, b ≤ T.length → t (0, b) = specTable D emp S T 0 b) →
      (∀ a b, 1 ≤ a → a ≤ S.length → 1 ≤ b → b ≤ j → t (a, b) = specTable D emp S T a b) →
      ((∀ a, a ≤ S.length →
          ((lT.enumFrom j).foldl (fun t jtp => fillInner D emp jtp.2 jtp.1 S t) t) (a, 0) =
            specTable D emp S T a 0) ∧
        (∀ b, b ≤ T.length →
          ((lT.enumFrom j).foldl (fun t jtp => fillInner D emp jtp.2 jtp.1 S t) t) (0, b) =
            specTable D emp S T 0 b) ∧
        (∀ a b, 1 ≤ a → a ≤ S.length → 1 ≤ b → b ≤ j + lT.length →
          ((lT.enumFrom j).foldl (fun t jtp => fillInner D emp jtp.2 jtp.1 S t) t) (a, b) =
            specTable D emp S T a b)) := by
  intro lT
  induction lT with
  | nil =>
    intro j t _ h0 hrow0 hfin
    rw [List.enumFrom_nil, List.foldl_nil]
    exact ⟨h0, hrow0, fun a b h1 h2 h3 h4 => hfin a b h1 h2 h3 (by simpa using h4)⟩
  | cons tp lT ih =>
    intro j t hdrop h0 hrow0 hfin
    have hj : j < T.length := by
      by_contra hge
      rw [List.drop_eq_nil_iff.mpr (by omega)] at hdrop
      exact List.cons_ne_nil tp lT hdrop
    have hcons : T[j] :: T.drop (j + 1) = T.drop j := List.getElem_cons_drop T j hj
    rw [← hdrop] at hcons
    obtain ⟨htp', hlT'⟩ := List.cons.inj hcons
    have htp : tp = T[j] := htp'.symm
    have hlT : lT = T.drop (j + 1) := hlT'.symm
    have hTgetD : T.getD j emp = T[j] := by
      simp [List.getD_eq_getElem?_getD, List.getElem?_eq_getElem hj]
    rw [List.enumFrom_cons, List.foldl_cons]
    have hinner := fillInner_invariant D emp S T j hj S 0 t (List.drop_zero S).symm
      h0 hrow0 hfin (fun a h1 h2 => by omega)
    have hinner_eq : fillInner D emp tp j S t =
        ((S.enumFrom 0).foldl (innerStep D emp (T.getD j emp) j) t) := by
      rw [fillInner, htp, hTgetD]
      rfl
    have h0' : ∀ a, a ≤ S.length →
        (fillInner D emp tp j S t) (a, 0) = specTable D emp S T a 0 := by
      intro a ha
      rw [hinner_eq, hinner.1 a 0 (by rintro ⟨hc, _, _⟩; omega)]
      exact h0 a ha
    have hrow0' : ∀ b, b ≤ T.length →
        (fillInner D emp tp j S t) (0, b) = specTable D emp S T 0 b := by
      intro b hb
      rw [hinner_eq, hinner.1 0 b (by rintro ⟨_, hc, _⟩; omega)]
      exact hrow0 b hb
    have hfin' : ∀ a b, 1 ≤ a → a ≤ S.length → 1 ≤ b → b ≤ j + 1 →
        (fillInner D emp tp j S t) (a, b) = specTable D emp S T a b := by
      intro a b h1 h2 h3 h4
      rcases Nat.lt_or_ge b (j + 1) with hlt | hge
      · rw [hinner_eq, hinner.1 a b (by rintro ⟨hc, _, _⟩; omega)]
        exact hfin a b h1 h2 h3 (by omega)
      · have hb : b = j + 1 := by omega
        subst hb
        rw [hinner_eq]
        exact hinner.2 a h1 (by omega)
    have := ih (j + 1) (fillInner D emp tp j S t) hlT h0' hrow0' hfin'
    refine ⟨this.1, this.2.1, ?_⟩
    intro a b h1 h2 h3 h4
    exact this.2.2 a b h1 h2 h3 (by simp at h4 ⊢; omega)

/-- The imperative three-loop fill agrees with the specification
recurrence: the refinement underlying the C5 claim. -/
theorem calculate_lexeme_distance_eq_specTable (D : Phoneme → Phoneme → ℚ)
    (emp : Phoneme) (S T : List Phoneme) :
    calculate_lexeme_distance D emp S T =
      specTable D emp S T S.length T.length / ((S.length + T.length : ℕ) : ℚ) := by
  rw [calculate_lexeme_distance]
  congr 1
  have hbase0 : ∀ a, a ≤ S.length →
      (fillRow D emp T (fillCol D emp S (fun _ => 0))) (a, 0) =
        specTable D emp S T a 0 := by
    intro a ha
    rw [base_point, if_pos ⟨rfl, ha⟩]
  have hbaserow : ∀ b, b ≤ T.length →
      (fillRow D emp T (fillCol D emp S (fun _ => 0))) (0, b) =
        specTable D emp S T 0 b := by
    intro b hb
    rcases Nat.eq_zero_or_pos b with hb0 | hb1
    · subst hb0
      rw [base_point, if_pos ⟨rfl, Nat.zero_le _⟩]
    · rw [base_point, if_neg (by rintro ⟨hc, _⟩; omega), if_pos ⟨rfl, hb⟩]
  have hmain := fillMain_invariant D emp S T T 0
    (fillRow D emp T (fillCol D emp S (fun _ => 0))) (List.drop_zero T).symm
    hbase0 hbaserow (fun a b _ _ _ hb4 => by omega)
  have hfm : fillMain D emp S T (fillRow D emp T (fillCol D emp S (fun _ => 0))) =
      ((T.enumFrom 0).foldl (fun t jtp => fillInner D emp jtp.2 jtp.1 S t)
        (fillRow D emp T (fillCol D emp S (fun _ => 0)))) := rfl
  rw [hfm]
  rcases Nat.eq_zero_or_pos S.length with hm | hm
  · rw [hm]
    exact hmain.2.1 T.length le_rfl
  · rcases Nat.eq_zero_or_pos T.length with hn | hn
    · rw [hn]
      exact hmain.1 S.length le_rfl
    · exact hmain.2.2 S.length T.length hm le_rfl hn (by omega)

/-- C5: for source S of length m and target T of length n with m + n > 0,
calculate_lexeme_distance returns M[m, n] / (m + n), where M is the
(m+1)x(n+1) dynamic-programming table of the specification recurrence. -/
theorem c5_lexeme_distance (D : Phoneme → Phoneme → ℚ) (emp : Phoneme)
    (S T : List Phoneme) (_h : 0 < S.length + T.length) :
    calculate_lexeme_distance D emp S T =
      specTable D emp S T S.length T.length / ((S.length + T.length : ℕ) : ℚ) :=
  calculate_lexeme_distance_eq_specTable D emp S T

/-- The empty phoneme used in the C5 witness. -/
def empW : Phoneme := ⟨[], ""⟩

/-- A concrete phoneme distance for the C5 witness. -/
def dW : Phoneme → Phoneme → ℚ := fun p q => if phonemeFeatEq p q then 0 else 1

/-- C5 witness: the characterization applied at concrete one-phoneme
lexemes, and the resulting value computed. -/
theorem c5_witness :
    calculate_lexeme_distance dW empW [pW1] [pW2] =
      specTable dW empW [pW1] [pW2] 1 1 / ((2 : ℕ) : ℚ) ∧
    calculate_lexeme_distance dW empW [pW1] [pW2] = 1 / 2 := by
  have h1 := c5_lexeme_distance dW empW [pW1] [pW2] (by decide)
  have e1 : phonemeFeatEq pW1 empW = false := by decide
  have e2 : phonemeFeatEq empW pW2 = false := by decide
  have e3 : phonemeFeatEq pW1 pW2 = false := by decide
  have d1 : dW pW1 empW = 1 := by simp [dW, e1]
  have d2 : dW empW pW2 = 1 := by simp [dW, e2]
  have d3 : dW pW1 pW2 = 1 := by simp [dW, e3]
  have hg1 : ([pW1] : List Phoneme).getD 0 empW = pW1 := rfl
  have hg2 : ([pW2] : List Phoneme).getD 0 empW = pW2 := rfl
  have hspec : specTable dW empW [pW1] [pW2] 1 1 = 1 := by
    have s00 : specTable dW empW [pW1] [pW2] 0 0 = 0 := by rw [specTable]
    have s10 : specTable dW empW [pW1] [pW2] 1 0 = 1 := by
      rw [specTable, s00, hg1, d1]
      norm_num
    have s01 : specTable dW empW [pW1] [pW2] 0 1 = 1 := by
      rw [specTable, s00, hg2, d2]
      norm_num
    rw [specTable, hg1, hg2, s10, s01, s00, d1, d2, d3]
    rw [min_def, min_def]
    norm_num
  refine ⟨h1, ?_⟩
  rw [h1]
  simp only [List.length_singleton]
  rw [hspec]
  norm_num

/-! ### Lexeme and language distance (app/models/lexeme.py,
app/operations/language.py) -/

/-- A lexeme (app/models/lexeme.py): an ordered list of phonemes with a
meaning and an owning language code. -/
structure Lexeme where
  phonemes : List Phoneme
  meaning : String := ""
  language_code : String := ""
deriving DecidableEq

/-- The leaf vocabulary of a language, modelling Language.lexemes_dict:
the meaning-to-lexeme mapping (keys unique). -/
def LeafVocab : Type := List (String × Lexeme)

/-- The set of meanings shared by two languages (Language.__and__):
set(self.lexemes_dict) & set(other.lexemes_dict), enumerated in first-key
order. -/
def sharedMeanings (lang1 lang2 : LeafVocab) : List String :=
  ((lang1.map Prod.fst).dedup).filter (fun w => (lang2.map Prod.fst).contains w)

/-- calculate_language_distance (app/operations/language.py): the list of
lexeme distances over the shared meanings, then sum(dists) / len(dists).
The empty shared set makes len(dists) zero and the division raises
ZeroDivisionError, modelled by none. -/
def calculate_language_distance (D : Phoneme → Phoneme → ℚ) (emp : Phoneme)
    (lang1 lang2 : LeafVocab) : Option ℚ :=
  let dists := (sharedMeanings lang1 lang2).filterMap (fun w =>
    match lang1.lookup w, lang2.lookup w with
    | some l1, some l2 => some (calculate_lexeme_distance D emp l1.phonemes l2.phonemes)
    | _, _ => none)
  if dists.length = 0 then none
  else some (dists.sum / (dists.length : ℚ))

/-- Total lookup used to state the C6 mean (lookups on shared meanings
never miss). -/
def lookupLex (lang : LeafVocab) (w : String) : Lexeme :=
  (lang.lookup w).getD ⟨[], "", ""⟩

theorem lookup_isSome_of_mem_fst {β : Type} (lang : List (String × β)) (w : String)
    (h : w ∈ lang.map Prod.fst) : ∃ l, List.lookup w lang = some l := by
  induction lang with
  | nil => cases h
  | cons e lang ih =>
    rcases List.mem_cons.mp h with h1 | h1
    · exact ⟨e.2, by simp [List.lookup, h1.symm]⟩
    · by_cases he : w == e.1
      · exact ⟨e.2, by simp [List.lookup, he]⟩
      · obtain ⟨l, hl⟩ := ih h1
        exact ⟨l, by simp only [List.lookup, he]; exact hl⟩

theorem sharedMeanings_lookup (lang1 lang2 : LeafVocab) (w : String)
    (h : w ∈ sharedMeanings lang1 lang2) :
    (∃ l, List.lookup w lang1 = some l) ∧ (∃ l, List.lookup w lang2 = some l) := by
  rw [sharedMeanings] at h
  have h1 := List.mem_of_mem_filter h
  have h2 := List.of_mem_filter h
  refine ⟨lookup_isSome_of_mem_fst lang1 w (List.mem_dedup.mp h1), ?_⟩
  exact lookup_isSome_of_mem_fst lang2 w (by simpa using h2)

/-- C6: with at least one shared meaning the result is the arithmetic mean
of the lexeme distances over the shared meanings; with no shared meaning
the division by len(dists) = 0 raises (none), never returning a number. -/
theorem c6_language_distance (D : Phoneme → Phoneme → ℚ) (emp : Phoneme)
    (lang1 lang2 : LeafVocab) :
    (sharedMeanings lang1 lang2 = [] → calculate_language_distance D emp lang1 lang2 = none) ∧
    (sharedMeanings lang1 lang2 ≠ [] →
      calculate_language_distance D emp lang1 lang2 =
        some (((sharedMeanings lang1 lang2).map (fun w =>
            calculate_lexeme_distance D emp (lookupLex lang1 w).phonemes
              (lookupLex lang2 w).phonemes)).sum /
          ((sharedMeanings lang1 lang2).length : ℚ))) := by
  have hmap : (sharedMeanings lang1 lang2).filterMap (fun w =>
      match lang1.lookup w, lang2.lookup w with
      | some l1, some l2 => some (calculate_lexeme_distance D emp l1.phonemes l2.phonemes)
      | _, _ => none) =
      (sharedMeanings lang1 lang2).map (fun w =>
        calculate_lexeme_distance D emp (lookupLex lang1 w).phonemes
          (lookupLex lang2 w).phonemes) := by
    have hsub : ∀ w ∈ sharedMeanings lang1 lang2,
        (∃ l, List.lookup w lang1 = some l) ∧ (∃ l, List.lookup w lang2 = some l) :=
      fun w hw => sharedMeanings_lookup lang1 lang2 w hw
    revert hsub
    generalize sharedMeanings lang1 lang2 = shared
    intro hsub
    induction shared with
    | nil => rfl
    | cons w shared ih =>
      obtain ⟨⟨l1, hl1⟩, ⟨l2, hl2⟩⟩ := hsub w (List.mem_cons_self w shared)
      rw [List.filterMap_cons, List.map_cons, hl1, hl2]
      rw [ih (fun x hx => hsub x (List.mem_cons_of_mem w hx))]
      simp [lookupLex, hl1, hl2]
  constructor
  · intro hempty
    rw [calculate_language_distance]
    simp only [hempty, List.filterMap_nil, List.length_nil]
    rfl
  · intro hne
    rw [calculate_language_distance]
    simp only [hmap]
    rw [if_neg]
    · simp
    · simp only [List.length_map]
      intro hlen
      exact hne (List.eq_nil_of_length_eq_zero hlen)

/-- A concrete lexeme for the C6 witness. -/
def lexW : Lexeme := ⟨[pW1], "one", "aa"⟩

/-- A concrete one-entry vocabulary for the C6 witness. -/
def langW : LeafVocab := [("one", lexW)]

/-- C6 witness: the mean formula applied to two languages sharing the
meaning "one". -/
theorem c6_witness :
    calculate_language_distance dW empW langW langW =
      some (((sharedMeanings langW langW).map (fun w =>
          calculate_lexeme_distance dW empW (lookupLex langW w).phonemes
            (lookupLex langW w).phonemes)).sum /
        ((sharedMeanings langW langW).length : ℚ)) :=
  (c6_language_distance dW empW langW langW).2 (by decide)

/-! ### Languages, trees and the reconstructor
(app/models/language.py, app/models/tree.py, app/constructors/languages.py,
app/constructors/lexeme.py) -/

/-- A vocabulary entry: a single Lexeme or a Synonyms bundle
(the duck-typed Lexeme-or-Synonyms value of Language.lexemes). -/
inductive Entry where
  | single : Lexeme → Entry
  | syns : List Lexeme → Entry
deriving DecidableEq

/-- A Language vocabulary: the ordered lexeme list with its
meaning-to-entry dictionary (kept consistent, keys unique), modelled as an
association list keyed by meaning. -/
abbrev Vocab : Type := List (String × Entry)

/-- A language node of the tree: its vocabulary and its child edges, each
carrying the branch distance. -/
inductive LTree where
  | node : Vocab → List (ℚ × LTree) → LTree

/-- The vocabulary of a node. -/
def LTree.vocab : LTree → Vocab
  | .node v _ => v

/-- The child edges of a node. -/
def LTree.children : LTree → List (ℚ × LTree)
  | .node _ cs => cs

/-- Lexeme.__eq__ : equality by phoneme sequence (Phoneme equality is by
feature set). -/
def phonemeListEq : List Phoneme → List Phoneme → Bool
  | [], [] => true
  | p :: ps, q :: qs => phonemeFeatEq p q && phonemeListEq ps qs
  | _, _ => false

/-- Python equality of two lexemes (by phonemes only). -/
def lexemeEq (l1 l2 : Lexeme) : Bool := phonemeListEq l1.phonemes l2.phonemes

/-- Synonyms.__contains__ : list membership by Lexeme.__eq__. -/
def lexMem (l : Lexeme) (ls : List Lexeme) : Bool := ls.any (fun x => lexemeEq x l)

/-- The meanings of a vocabulary (the dict keys, in order). -/
def meaningsOf (v : Vocab) : List String := v.map Prod.fst

/-- Language.__setitem__ with a string key: overwrite the entry at the
meaning's position when present (keys are unique), else append. -/
def setEntry (v : Vocab) (m : String) (e : Entry) : Vocab :=
  if (v.map Prod.fst).contains m then
    v.map (fun p => if p.1 == m then (m, e) else p)
  else v ++ [(m, e)]

mutual

/-- set_lexeme_to_descendants (app/constructors/languages.py): when the
node's entry at the meaning is a Synonyms bundle containing the selected
synonym, overwrite it with the single lexeme and recurse into the
children; a missing meaning is a KeyError (none). -/
def set_lexeme_to_descendants (m : String) (lexeme synonym : Lexeme) :
    LTree → Option LTree
  | .node v cs =>
    match List.lookup m v with
    | none => none
    | some (.single _) => some (.node v cs)
    | some (.syns ls) =>
      if lexMem synonym ls then
        match setDescendantsList m lexeme synonym cs with
        | none => none
        | some cs' => some (.node (setEntry v m (.single lexeme)) cs')
      else some (.node v cs)

/-- The recursion of set_lexeme_to_descendants over the child list. -/
def setDescendantsList (m : String) (lexeme synonym : Lexeme) :
    List (ℚ × LTree) → Option (List (ℚ × LTree))
  | [] => some []
  | (d, c) :: rest =>
    match set_lexeme_to_descendants m lexeme synonym c with
    | none => none
    | some c' =>
      match setDescendantsList m lexeme synonym rest with
      | none => none
      | some rest' => some ((d, c') :: rest')

end

/-- The reconstructor's normalization of an entry to a Synonyms bundle. -/
def normalizeEntry : Entry → List Lexeme
  | .single l => [l]
  | .syns ls => ls

/-- The synonym pair loop of reconstruct_language: scan all pairs in
order, keep the first strict minimizer of the lexeme distance; an empty
pair list leaves min_word_distance as None, making the subsequent
comparison a TypeError (none). -/
def minPair (D : Phoneme → Phoneme → ℚ) (emp : Phoneme) (s1 s2 : List Lexeme) :
    Option (ℚ × Lexeme × Lexeme) :=
  (s1.flatMap (fun l1 => s2.map (fun l2 => (l1, l2)))).foldl
    (fun acc pr =>
      let dist := calculate_lexeme_distance D emp pr.1.phonemes pr.2.phonemes
      match acc with
      | none => some (dist, pr.1, pr.2)
      | some best => if dist < best.1 then some (dist, pr.1, pr.2) else some best)
    none

/-- reconstruct_lexeme (app/constructors/lexeme.py): concatenate the
phoneme sequences, inherit meaning and language_code from the first
lexeme; the two distances are accepted and ignored. -/
def reconstruct_lexeme (l1 l2 : Lexeme) (_d1 _d2 : ℚ) : Lexeme :=
  ⟨l1.phonemes ++ l2.phonemes, l1.meaning, l1.language_code⟩

/-- The body of the per-meaning loop of reconstruct_language, acting on
the state (root vocabulary, first child, second child).  branchSum is the
sum of the child edge distances computed before the loop.  The two elif
branches mirror the source; they are unreachable because the loop iterates
the intersection of the children's meanings. -/
def reconstructStep (D : Phoneme → Phoneme → ℚ) (emp : Phoneme) (th branchSum d1 d2 : ℚ)
    (st : Vocab × LTree × LTree) (m : String) : Option (Vocab × LTree × LTree) :=
  if (meaningsOf st.2.1.vocab).contains m && (meaningsOf st.2.2.vocab).contains m then
    match List.lookup m st.2.1.vocab, List.lookup m st.2.2.vocab with
    | some e1, some e2 =>
      let s1 := normalizeEntry e1
      let s2 := normalizeEntry e2
      match minPair D emp s1 s2 with
      | none => none
      | some (dmin, l1, l2) =>
        if dmin > branchSum * th then
          some (setEntry st.1 m (.syns (s1 ++ s2)), st.2.1, st.2.2)
        else
          let proto := reconstruct_lexeme l1 l2 d1 d2
          match set_lexeme_to_descendants m proto l1 st.2.1 with
          | none => none
          | some c1' =>
            match set_lexeme_to_descendants m proto l2 st.2.2 with
            | none => none
            | some c2' => some (setEntry st.1 m (.single proto), c1', c2')
    | _, _ => none
  else if (meaningsOf st.2.1.vocab).contains m then
    match List.lookup m st.2.1.vocab with
    | some e => some (setEntry st.1 m e, st.2.1, st.2.2)
    | none => none
  else if (meaningsOf st.2.2.vocab).contains m then
    match List.lookup m st.2.2.vocab with
    | some e => some (setEntry st.1 m e, st.2.1, st.2.2)
    | none => none
  else some st

mutual

/-- reconstruct_language (app/constructors/languages.py): recurse into
children whose lexeme list is empty, compute branch_sum from the child
edges, then iterate the meanings in children[0] & children[1] (the set
intersection of the children's meanings).  Indexing children[0] and
children[1] requires exactly two children (otherwise an IndexError,
modelled by none). -/
def reconstruct_language (D : Phoneme → Phoneme → ℚ) (emp : Phoneme) (th : ℚ) :
    LTree → Option LTree
  | .node v cs =>
    match reconstructChildren D emp th cs with
    | none => none
    | some cs' =>
      match cs' with
      | [(d1, c1), (d2, c2)] =>
        let inter := ((meaningsOf c1.vocab).dedup).filter
          (fun m => (meaningsOf c2.vocab).contains m)
        match inter.foldlM (reconstructStep D emp th (d1 + d2) d1 d2) (v, c1, c2) with
        | none => none
        | some res => some (.node res.1 [(d1, res.2.1), (d2, res.2.2)])
      | _ => none

/-- The recursion of reconstruct_language into child languages with empty
lexeme lists. -/
def reconstructChildren (D : Phoneme → Phoneme → ℚ) (emp : Phoneme) (th : ℚ) :
    List (ℚ × LTree) → Option (List (ℚ × LTree))
  | [] => some []
  | (d, c) :: rest =>
    match (if c.vocab.isEmpty then reconstruct_language D emp th c else some c) with
    | none => none
    | some c' =>
      match reconstructChildren D emp th rest with
      | none => none
      | some rest' => some ((d, c') :: rest')

end

/-- reconstruct_protolanguages applies reconstruct_language to the root
with the default threshold 2.0. -/
def reconstruct_protolanguages (D : Phoneme → Phoneme → ℚ) (emp : Phoneme)
    (t : LTree) : Option LTree :=
  reconstruct_language D emp 2 t

/-! ### Tree discovery (app/models/tree.py) -/

/-- The mutable sets of Tree.__init__ (languages, leaves, edges), with
set.add modelled as appending; Language objects have no custom equality,
so all tree nodes are distinct set elements. -/
structure Discovered where
  languages : List LTree
  leaves : List LTree
  edges : List (ℚ × LTree)

mutual

/-- Tree._discover_descendants: for every child edge add the edge and the
child, recurse into the child, then add the child to the leaves if it has
no children. -/
def discoverNode : LTree → Discovered → Discovered
  | .node _ cs, acc => discoverEdges cs acc

/-- The loop of _discover_descendants over the child edges. -/
def discoverEdges : List (ℚ × LTree) → Discovered → Discovered
  | [], acc => acc
  | (d, c) :: rest, acc =>
    let acc1 : Discovered := ⟨acc.languages ++ [c], acc.leaves, acc.edges ++ [(d, c)]⟩
    let acc2 := discoverNode c acc1
    let acc3 : Discovered := if c.children.isEmpty then
        ⟨acc2.languages, acc2.leaves ++ [c], acc2.edges⟩
      else acc2
    discoverEdges rest acc3

end

/-- Tree(root).languages. -/
def treeLanguages (t : LTree) : List LTree := (discoverNode t ⟨[], [], []⟩).languages

/-- Tree(root).leaves. -/
def treeLeaves (t : LTree) : List LTree := (discoverNode t ⟨[], [], []⟩).leaves

mutual

/-- Modelled from the spec: the proper descendants of a node, every node
reachable from the root via one or more child edges. -/
def properDescendants : LTree → List LTree
  | .node _ cs => descendantsList cs

/-- Proper descendants below a list of child edges. -/
def descendantsList : List (ℚ × LTree) → List LTree
  | [] => []
  | (_, c) :: rest => c :: (properDescendants c ++ descendantsList rest)

end

mutual

/-- The childless proper descendants, in discovery order. -/
def leafDescendants : LTree → List LTree
  | .node _ cs => leafDescendantsList cs

/-- Childless proper descendants below a list of child edges. -/
def leafDescendantsList : List (ℚ × LTree) → List LTree
  | [] => []
  | (_, c) :: rest =>
    (leafDescendants c ++ (if c.children.isEmpty then [c] else [])) ++
      leafDescendantsList rest

end

/-! ### Association-list lemmas for vocabularies -/

theorem mem_fst_of_lookup_isSome {β : Type} (lang : List (String × β)) (w : String)
    (h : ∃ l, List.lookup w lang = some l) : w ∈ lang.map Prod.fst := by
  induction lang with
  | nil => obtain ⟨l, hl⟩ := h; simp [List.lookup] at hl
  | cons e lang ih =>
    obtain ⟨k, b⟩ := e
    obtain ⟨l, hl⟩ := h
    by_cases he : w = k
    · simp [he]
    · rw [List.lookup_cons, show (w == k) = false by simpa using he] at hl
      exact List.mem_cons_of_mem _ (ih ⟨l, hl⟩)

theorem lookup_isSome_iff_contains {β : Type} (lang : List (String × β)) (w : String) :
    (∃ l, List.lookup w lang = some l) ↔ (lang.map Prod.fst).contains w = true := by
  constructor
  · intro h
    simpa using mem_fst_of_lookup_isSome lang w h
  · intro h
    exact lookup_isSome_of_mem_fst lang w (by simpa using h)

theorem lookup_mapReplace (v : Vocab) (m : String) (e : Entry) :
    List.lookup m (v.map (fun p => if p.1 == m then (m, e) else p)) =
      (List.lookup m v).map (fun _ => e) := by
  induction v with
  | nil => rfl
  | cons p v ih =>
    obtain ⟨k, b⟩ := p
    by_cases hk : k = m
    · subst hk
      simp only [List.map_cons, show ((k, b).1 == k) = true by simp, if_true]
      rw [List.lookup_cons, show (k == k) = true by simp,
        List.lookup_cons, show (k == k) = true by simp]
      rfl
    · have hk1 : ((k, b).1 == m) = false := by simpa using hk
      simp only [List.map_cons, hk1, Bool.false_eq_true, if_false]
      rw [List.lookup_cons, show (m == k) = false by simpa using (Ne.symm hk),
        List.lookup_cons, show (m == k) = false by simpa using (Ne.symm hk), ih]

theorem lookup_mapReplace_other (v : Vocab) (m : String) (e : Entry) (w : String)
    (hw : w ≠ m) :
    List.lookup w (v.map (fun p => if p.1 == m then (m, e) else p)) =
      List.lookup w v := by
  induction v with
  | nil => rfl
  | cons p v ih =>
    obtain ⟨k, b⟩ := p
    by_cases hk : k = m
    · subst hk
      simp only [List.map_cons, show ((k, b).1 == k) = true by simp, if_true]
      rw [List.lookup_cons, show (w == k) = false by simpa using hw,
        List.lookup_cons, show (w == k) = false by simpa using hw, ih]
    · have hk1 : ((k, b).1 == m) = false := by simpa using hk
      simp only [List.map_cons, hk1, Bool.false_eq_true, if_false]
      by_cases hwk : w = k
      · subst hwk
        rw [List.lookup_cons, show (w == w) = true by simp,
          List.lookup_cons, show (w == w) = true by simp]
      · rw [List.lookup_cons, show (w == k) = false by simpa using hwk,
          List.lookup_cons, show (w == k) = false by simpa using hwk, ih]

theorem lookup_append_right {β : Type} (v : List (String × β)) (w : String)
    (hnone : List.lookup w v = none) (rest : List (String × β)) :
    List.lookup w (v ++ rest) = List.lookup w rest := by
  induction v with
  | nil => rfl
  | cons p v ih =>
    obtain ⟨k, b⟩ := p
    by_cases hk : w = k
    · rw [List.lookup_cons, show (w == k) = true by simpa using hk] at hnone
      cases hnone
    · rw [List.lookup_cons, show (w == k) = false by simpa using hk] at hnone
      rw [List.cons_append, List.lookup_cons, show (w == k) = false by simpa using hk]
      exact ih hnone

theorem lookup_not_contains_none {β : Type} (v : List (String × β)) (w : String)
    (h : (v.map Prod.fst).contains w = false) : List.lookup w v = none := by
  rcases hcase : List.lookup w v with _ | l
  · rfl
  · have := (lookup_isSome_iff_contains v w).mp ⟨l, hcase⟩
    rw [this] at h
    cases h

theorem lookup_setEntry_self (v : Vocab) (m : String) (e : Entry) :
    List.lookup m (setEntry v m e) = some e := by
  rw [setEntry]
  by_cases hc : (v.map Prod.fst).contains m = true
  · rw [if_pos hc, lookup_mapReplace]
    obtain ⟨l, hl⟩ := (lookup_isSome_iff_contains v m).mpr hc
    rw [hl]
    rfl
  · rw [if_neg hc]
    rw [lookup_append_right v m (lookup_not_contains_none v m (by simpa using hc))]
    rw [List.lookup_cons, show (m == m) = true by simp]

theorem lookup_setEntry_other (v : Vocab) (m : String) (e : Entry) (w : String)
    (hw : w ≠ m) : List.lookup w (setEntry v m e) = List.lookup w v := by
  rw [setEntry]
  by_cases hc : (v.map Prod.fst).contains m = true
  · rw [if_pos hc, lookup_mapReplace_other v m e w hw]
  · rw [if_neg hc]
    rcases hcase : List.lookup w v with _ | l
    · rw [lookup_append_right v w hcase]
      rw [List.lookup_cons, show (w == m) = false by simpa using hw, List.lookup_nil]
    · clear hc
      induction v with
      | nil => simp [List.lookup] at hcase
      | cons p v ih =>
        obtain ⟨k, b⟩ := p
        by_cases hk : w = k
        · rw [List.lookup_cons, show (w == k) = true by simpa using hk] at hcase
          rw [List.cons_append, List.lookup_cons,
            show (w == k) = true by simpa using hk, hcase]
        · rw [List.lookup_cons, show (w == k) = false by simpa using hk] at hcase
          rw [List.cons_append, List.lookup_cons,
            show (w == k) = false by simpa using hk]
          exact ih hcase

theorem contains_setEntry_other (v : Vocab) (m : String) (e : Entry) (w : String)
    (hw : w ≠ m) :
    ((setEntry v m e).map Prod.fst).contains w = (v.map Prod.fst).contains w := by
  rcases h1 : ((setEntry v m e).map Prod.fst).contains w with _ | _
  · rcases h2 : (v.map Prod.fst).contains w with _ | _
    · rfl
    · obtain ⟨l, hl⟩ := (lookup_isSome_iff_contains v w).mpr h2
      have := (lookup_isSome_iff_contains (setEntry v m e) w).mp
        ⟨l, by rw [lookup_setEntry_other v m e w hw]; exact hl⟩
      rw [this] at h1
      cases h1
  · obtain ⟨l, hl⟩ := (lookup_isSome_iff_contains (setEntry v m e) w).mpr h1
    rw [lookup_setEntry_other v m e w hw] at hl
    have := (lookup_isSome_iff_contains v w).mp ⟨l, hl⟩
    rw [this]

/-! ### C10: tree discovery -/

mutual

theorem discoverNode_spec (t : LTree) (acc : Discovered) :
    (discoverNode t acc).languages = acc.languages ++ properDescendants t ∧
    (discoverNode t acc).leaves = acc.leaves ++ leafDescendants t := by
  cases t with
  | node v cs =>
    rw [discoverNode, properDescendants, leafDescendants]
    exact discoverEdges_spec cs acc

theorem discoverEdges_spec (cs : List (ℚ × LTree)) (acc : Discovered) :
    (discoverEdges cs acc).languages = acc.languages ++ descendantsList cs ∧
    (discoverEdges cs acc).leaves = acc.leaves ++ leafDescendantsList cs := by
  cases cs with
  | nil => simp [discoverEdges, descendantsList, leafDescendantsList]
  | cons dc rest =>
    obtain ⟨d, c⟩ := dc
    rw [discoverEdges]
    obtain ⟨h2L, h2V⟩ := discoverNode_spec c
      ⟨acc.languages ++ [c], acc.leaves, acc.edges ++ [(d, c)]⟩
    by_cases hleaf : c.children.isEmpty = true
    · rw [if_pos hleaf]
      obtain ⟨h3L, h3V⟩ := discoverEdges_spec rest
        ⟨(discoverNode c ⟨acc.languages ++ [c], acc.leaves, acc.edges ++ [(d, c)]⟩).languages,
         (discoverNode c ⟨acc.languages ++ [c], acc.leaves, acc.edges ++ [(d, c)]⟩).leaves ++ [c],
         (discoverNode c ⟨acc.languages ++ [c], acc.leaves, acc.edges ++ [(d, c)]⟩).edges⟩
      constructor
      · rw [h3L, h2L, descendantsList]
        simp
      · rw [h3V, h2V, leafDescendantsList, hleaf]
        simp
    · rw [if_neg hleaf]
      obtain ⟨h3L, h3V⟩ := discoverEdges_spec rest
        (discoverNode c ⟨acc.languages ++ [c], acc.leaves, acc.edges ++ [(d, c)]⟩)
      constructor
      · rw [h3L, h2L, descendantsList]
        simp
      · rw [h3V, h2V, leafDescendantsList,
          show c.children.isEmpty = false by simpa using hleaf]
        simp

end

mutual

theorem mem_leafDescendants (t x : LTree) :
    x ∈ leafDescendants t ↔ x ∈ properDescendants t ∧ x.children = [] := by
  cases t with
  | node v cs =>
    rw [leafDescendants, properDescendants]
    exact mem_leafDescendantsList cs x

theorem mem_leafDescendantsList (cs : List (ℚ × LTree)) (x : LTree) :
    x ∈ leafDescendantsList cs ↔ x ∈ descendantsList cs ∧ x.children = [] := by
  cases cs with
  | nil => simp [leafDescendantsList, descendantsList]
  | cons dc rest =>
    obtain ⟨d, c⟩ := dc
    rw [leafDescendantsList, descendantsList]
    have h1 := mem_leafDescendants c x
    have h2 := mem_leafDescendantsList rest x
    by_cases hleaf : c.children.isEmpty = true
    · have hc : c.children = [] := by simpa using hleaf
      rw [if_pos hleaf]
      simp only [List.mem_append, List.mem_cons, List.not_mem_nil, or_false]
      constructor
      · rintro ((hm | hm) | hm)
        · obtain ⟨hd, hch⟩ := h1.mp hm
          exact ⟨Or.inr (Or.inl hd), hch⟩
        · subst hm
          exact ⟨Or.inl rfl, hc⟩
        · obtain ⟨hd, hch⟩ := h2.mp hm
          exact ⟨Or.inr (Or.inr hd), hch⟩
      · rintro ⟨(hm | hm | hm), hch⟩
        · subst hm
          exact Or.inl (Or.inr rfl)
        · exact Or.inl (Or.inl (h1.mpr ⟨hm, hch⟩))
        · exact Or.inr (h2.mpr ⟨hm, hch⟩)
    · have hc : ¬ c.children = [] := by simpa using hleaf
      rw [if_neg hleaf]
      simp only [List.mem_append, List.mem_cons, List.not_mem_nil, or_false]
      constructor
      · rintro (hm | hm)
        · obtain ⟨hd, hch⟩ := h1.mp hm
          exact ⟨Or.inr (Or.inl hd), hch⟩
        · obtain ⟨hd, hch⟩ := h2.mp hm
          exact ⟨Or.inr (Or.inr hd), hch⟩
      · rintro ⟨(hm | hm | hm), hch⟩
        · subst hm
          exact absurd hch hc
        · exact Or.inl (h1.mpr ⟨hm, hch⟩)
        · exact Or.inr (h2.mpr ⟨hm, hch⟩)

end

/-- C10: Tree discovery collects exactly the proper descendants of the
root (never the root itself) into languages, and exactly the childless
proper descendants into leaves; a childless root yields empty languages
and leaves. -/
theorem c10_tree_discovery :
    (∀ (t x : LTree),
      (x ∈ treeLanguages t ↔ x ∈ properDescendants t) ∧
      (x ∈ treeLeaves t ↔ x ∈ properDescendants t ∧ x.children = [])) ∧
    (∀ v : Vocab, treeLanguages (.node v []) = [] ∧ treeLeaves (.node v []) = []) := by
  constructor
  · intro t x
    have h := discoverNode_spec t ⟨[], [], []⟩
    constructor
    · rw [treeLanguages, h.1]
      simp
    · rw [treeLeaves, h.2]
      simpa using mem_leafDescendants t x
  · intro v
    have h := discoverNode_spec (.node v []) ⟨[], [], []⟩
    constructor
    · rw [treeLanguages, h.1, properDescendants, descendantsList]
      rfl
    · rw [treeLeaves, h.2, leafDescendants, leafDescendantsList]
      rfl

/-! ### C8: the propagation frame property -/

/-- C8: set_lexeme_to_descendants leaves the whole subtree unchanged when
the node's entry at the meaning is a single Lexeme, and any change at all
requires the node's entry to be a Synonyms bundle containing the selected
surface form. -/
theorem c8_propagation_frame (m : String) (lx syn : Lexeme) (t : LTree) :
    (∀ l, List.lookup m t.vocab = some (.single l) →
      set_lexeme_to_descendants m lx syn t = some t) ∧
    (∀ t', set_lexeme_to_descendants m lx syn t = some t' → t' ≠ t →
      ∃ ls, List.lookup m t.vocab = some (.syns ls) ∧ lexMem syn ls = true) := by
  cases t with
  | node v cs =>
    constructor
    · intro l hl
      have hl' : List.lookup m v = some (.single l) := hl
      rw [set_lexeme_to_descendants, hl']
    · intro t' ht hne
      rcases hcase : List.lookup m v with _ | e
      · rw [set_lexeme_to_descendants, hcase] at ht
        cases ht
      · cases e with
        | single l =>
          rw [set_lexeme_to_descendants, hcase] at ht
          exact absurd (Option.some.inj ht).symm hne
        | syns ls =>
          by_cases hmem : lexMem syn ls = true
          · exact ⟨ls, hcase, hmem⟩
          · have hmem' : lexMem syn ls = false := by simpa using hmem
            have hval : set_lexeme_to_descendants m lx syn (.node v cs) =
                some (.node v cs) := by
              rw [set_lexeme_to_descendants, hcase]
              simp [hmem']
            rw [hval] at ht
            exact absurd (Option.some.inj ht).symm hne

/-- C8 witness: a concrete node carrying a single-Lexeme entry is returned
unchanged together with its subtree. -/
theorem c8_witness :
    set_lexeme_to_descendants "one" (Lexeme.mk [pW2] "one" "x") (Lexeme.mk [pW1] "one" "y")
      (.node [("one", .single lexW)] [(0, .node [("one", .single lexW)] [])]) =
      some (.node [("one", .single lexW)] [(0, .node [("one", .single lexW)] [])]) :=
  (c8_propagation_frame "one" (Lexeme.mk [pW2] "one" "x") (Lexeme.mk [pW1] "one" "y")
      (.node [("one", .single lexW)] [(0, .node [("one", .single lexW)] [])])).1
    lexW (by rw [LTree.vocab, List.lookup_cons, show ("one" == "one") = true by simp])

/-! ### C7: the per-meaning reconstruction decision -/

theorem setDesc_vocab_lookup (m : String) (lx syn : Lexeme) (t t' : LTree)
    (h : set_lexeme_to_descendants m lx syn t = some t') (w : String) (hw : w ≠ m) :
    List.lookup w t'.vocab = List.lookup w t.vocab ∧
    (meaningsOf t'.vocab).contains w = (meaningsOf t.vocab).contains w := by
  cases t with
  | node v cs =>
    rcases hcase : List.lookup m v with _ | e
    · rw [set_lexeme_to_descendants, hcase] at h
      cases h
    · cases e with
      | single l =>
        have hval : set_lexeme_to_descendants m lx syn (.node v cs) =
            some (.node v cs) := by
          rw [set_lexeme_to_descendants, hcase]
        rw [hval] at h
        rw [← Option.some.inj h]
        exact ⟨rfl, rfl⟩
      | syns ls =>
        by_cases hmem : lexMem syn ls = true
        · rcases hLs : setDescendantsList m lx syn cs with _ | cs2
          · have hval : set_lexeme_to_descendants m lx syn (.node v cs) = none := by
              rw [set_lexeme_to_descendants, hcase]
              simp [hmem, hLs]
            rw [hval] at h
            cases h
          · have hval : set_lexeme_to_descendants m lx syn (.node v cs) =
                some (.node (setEntry v m (.single lx)) cs2) := by
              rw [set_lexeme_to_descendants, hcase]
              simp [hmem, hLs]
            rw [hval] at h
            rw [← Option.some.inj h]
            exact ⟨lookup_setEntry_other v m (.single lx) w hw,
              contains_setEntry_other v m (.single lx) w hw⟩
        · have hmem' : lexMem syn ls = false := by simpa using hmem
          have hval : set_lexeme_to_descendants m lx syn (.node v cs) =
              some (.node v cs) := by
            rw [set_lexeme_to_descendants, hcase]
            simp [hmem']
          rw [hval] at h
          rw [← Option.some.inj h]
          exact ⟨rfl, rfl⟩

theorem reconstructStep_frame (D : Phoneme → Phoneme → ℚ) (emp : Phoneme)
    (th bs d1 d2 : ℚ) (st res : Vocab × LTree × LTree) (w : String)
    (h : reconstructStep D emp th bs d1 d2 st w = some res)
    (m' : String) (hm' : m' ≠ w) :
    List.lookup m' res.1 = List.lookup m' st.1 ∧
    List.lookup m' res.2.1.vocab = List.lookup m' st.2.1.vocab ∧
    List.lookup m' res.2.2.vocab = List.lookup m' st.2.2.vocab := by
  rw [reconstructStep] at h
  by_cases hc1 : ((meaningsOf st.2.1.vocab).contains w &&
      (meaningsOf st.2.2.vocab).contains w) = true
  · rw [if_pos hc1] at h
    rcases hl1 : List.lookup w st.2.1.vocab with _ | e1 <;>
      rcases hl2 : List.lookup w st.2.2.vocab with _ | e2 <;>
      rw [hl1, hl2] at h
    · cases h
    · cases h
    · cases h
    · rcases hmp : minPair D emp (normalizeEntry e1) (normalizeEntry e2)
        with _ | ⟨δ, l1, l2⟩
      · simp only [hmp] at h
        cases h
      · simp only [hmp] at h
        by_cases hth : δ > bs * th
        · rw [if_pos hth] at h
          rw [← Option.some.inj h]
          exact ⟨lookup_setEntry_other _ w _ m' hm', rfl, rfl⟩
        · rw [if_neg hth] at h
          rcases hs1 : set_lexeme_to_descendants w
              (reconstruct_lexeme l1 l2 d1 d2) l1 st.2.1 with _ | c1' <;>
            rw [hs1] at h
          · cases h
          · rcases hs2 : set_lexeme_to_descendants w
                (reconstruct_lexeme l1 l2 d1 d2) l2 st.2.2 with _ | c2' <;>
              rw [hs2] at h
            · cases h
            · rw [← Option.some.inj h]
              exact ⟨lookup_setEntry_other _ w _ m' hm',
                (setDesc_vocab_lookup w _ l1 st.2.1 c1' hs1 m' hm').1,
                (setDesc_vocab_lookup w _ l2 st.2.2 c2' hs2 m' hm').1⟩
  · rw [if_neg hc1] at h
    by_cases hc2 : (meaningsOf st.2.1.vocab).contains w = true
    · rw [if_pos hc2] at h
      rcases hl1 : List.lookup w st.2.1.vocab with _ | e <;> rw [hl1] at h
      · cases h
      · rw [← Option.some.inj h]
        exact ⟨lookup_setEntry_other _ w _ m' hm', rfl, rfl⟩
    · rw [if_neg hc2] at h
      by_cases hc3 : (meaningsOf st.2.2.vocab).contains w = true
      · rw [if_pos hc3] at h
        rcases hl2 : List.lookup w st.2.2.vocab with _ | e <;> rw [hl2] at h
        · cases h
        · rw [← Option.some.inj h]
          exact ⟨lookup_setEntry_other _ w _ m' hm', rfl, rfl⟩
      · rw [if_neg hc3] at h
        rw [← Option.some.inj h]
        exact ⟨rfl, rfl, rfl⟩

theorem reconstructStep_value (D : Phoneme → Phoneme → ℚ) (emp : Phoneme)
    (th bs d1 d2 : ℚ) (st res : Vocab × LTree × LTree) (w : String) (e1 e2 : Entry)
    (h : reconstructStep D emp th bs d1 d2 st w = some res)
    (h1 : List.lookup w st.2.1.vocab = some e1)
    (h2 : List.lookup w st.2.2.vocab = some e2) :
    ∃ δ l1 l2,
      minPair D emp (normalizeEntry e1) (normalizeEntry e2) = some (δ, l1, l2) ∧
      List.lookup w res.1 = some (if δ > bs * th
        then Entry.syns (normalizeEntry e1 ++ normalizeEntry e2)
        else Entry.single ⟨l1.phonemes ++ l2.phonemes, l1.meaning, l1.language_code⟩) := by
  have hc1 : ((meaningsOf st.2.1.vocab).contains w &&
      (meaningsOf st.2.2.vocab).contains w) = true := by
    rw [Bool.and_eq_true]
    exact ⟨(lookup_isSome_iff_contains _ w).mp ⟨e1, h1⟩,
      (lookup_isSome_iff_contains _ w).mp ⟨e2, h2⟩⟩
  rw [reconstructStep, if_pos hc1, h1, h2] at h
  rcases hmp : minPair D emp (normalizeEntry e1) (normalizeEntry e2)
    with _ | ⟨δ, l1, l2⟩
  · simp only [hmp] at h
    cases h
  · simp only [hmp] at h
    refine ⟨δ, l1, l2, rfl, ?_⟩
    by_cases hth : δ > bs * th
    · rw [if_pos hth] at h
      rw [if_pos hth, ← Option.some.inj h]
      exact lookup_setEntry_self _ w _
    · rw [if_neg hth] at h
      rcases hs1 : set_lexeme_to_descendants w
          (reconstruct_lexeme l1 l2 d1 d2) l1 st.2.1 with _ | c1' <;>
        rw [hs1] at h
      · cases h
      · rcases hs2 : set_lexeme_to_descendants w
            (reconstruct_lexeme l1 l2 d1 d2) l2 st.2.2 with _ | c2' <;>
          rw [hs2] at h
        · cases h
        · rw [if_neg hth, ← Option.some.inj h]
          exact lookup_setEntry_self _ w _

theorem reconstructFold_frame (D : Phoneme → Phoneme → ℚ) (emp : Phoneme)
    (th bs d1 d2 : ℚ) (inter : List String) :
    ∀ (st res : Vocab × LTree × LTree) (m : String), m ∉ inter →
      inter.foldlM (reconstructStep D emp th bs d1 d2) st = some res →
      List.lookup m res.1 = List.lookup m st.1 := by
  induction inter with
  | nil =>
    intro st res m _ h
    rw [List.foldlM_nil] at h
    rw [← Option.some.inj h]
  | cons w rest ih =>
    intro st res m hm h
    rw [List.foldlM_cons] at h
    rcases hst1 : reconstructStep D emp th bs d1 d2 st w with _ | st1 <;>
      rw [hst1] at h
    · cases h
    · have hrest : rest.foldlM (reconstructStep D emp th bs d1 d2) st1 = some res := by
        simpa using h
      rw [ih st1 res m (fun hmem => hm (List.mem_cons_of_mem w hmem)) hrest]
      exact (reconstructStep_frame D emp th bs d1 d2 st st1 w hst1 m
        (fun he => hm (he ▸ List.mem_cons_self w rest))).1

theorem reconstructFold_entry (D : Phoneme → Phoneme → ℚ) (emp : Phoneme)
    (th bs d1 d2 : ℚ) (inter : List String) :
    ∀ (st res : Vocab × LTree × LTree) (m : String) (e1 e2 : Entry),
      inter.Nodup → m ∈ inter →
      List.lookup m st.2.1.vocab = some e1 →
      List.lookup m st.2.2.vocab = some e2 →
      inter.foldlM (reconstructStep D emp th bs d1 d2) st = some res →
      ∃ δ l1 l2,
        minPair D emp (normalizeEntry e1) (normalizeEntry e2) = some (δ, l1, l2) ∧
        List.lookup m res.1 = some (if δ > bs * th
          then Entry.syns (normalizeEntry e1 ++ normalizeEntry e2)
          else Entry.single ⟨l1.phonemes ++ l2.phonemes, l1.meaning, l1.language_code⟩) := by
  induction inter with
  | nil =>
    intro st res m e1 e2 _ hm
    cases hm
  | cons w rest ih =>
    intro st res m e1 e2 hnd hm hl1 hl2 h
    rw [List.foldlM_cons] at h
    rcases hst1 : reconstructStep D emp th bs d1 d2 st w with _ | st1 <;>
      rw [hst1] at h
    · cases h
    · have hrest : rest.foldlM (reconstructStep D emp th bs d1 d2) st1 = some res := by
        simpa using h
      by_cases hmw : m = w
      · subst hmw
        obtain ⟨δ, l1, l2, hmp, hlook⟩ :=
          reconstructStep_value D emp th bs d1 d2 st st1 m e1 e2 hst1 hl1 hl2
        refine ⟨δ, l1, l2, hmp, ?_⟩
        rw [reconstructFold_frame D emp th bs d1 d2 rest st1 res m
          (List.Nodup.not_mem hnd) hrest]
        exact hlook
      · have hfr := reconstructStep_frame D emp th bs d1 d2 st st1 w hst1 m hmw
        exact ih st1 res m e1 e2 (List.Nodup.of_cons hnd)
          (List.mem_of_ne_of_mem hmw hm)
          (hfr.2.1.trans hl1) (hfr.2.2.trans hl2) hrest

/-- C7: at an internal node with two already-filled children, for a
meaning present in both children with entries e1, e2 normalized to
bundles, with (δ, ℓ1*, ℓ2*) the first minimizer of the lexeme distance
over all bundle pairs: the reconstructed entry at that meaning is the
concatenated bundle when δ exceeds branch_sum times the threshold, and
otherwise the merged proto-lexeme whose phonemes are the concatenation of
the minimizers' phonemes with meaning and language_code inherited from
ℓ1*. -/
theorem c7_threshold_merge (D : Phoneme → Phoneme → ℚ) (emp : Phoneme)
    (th : ℚ) (v : Vocab) (d1 d2 : ℚ) (c1 c2 : LTree)
    (m : String) (e1 e2 : Entry) (t' : LTree)
    (hne1 : c1.vocab ≠ []) (hne2 : c2.vocab ≠ [])
    (h1 : List.lookup m c1.vocab = some e1)
    (h2 : List.lookup m c2.vocab = some e2)
    (hrec : reconstruct_language D emp th (.node v [(d1, c1), (d2, c2)]) = some t') :
    ∃ δ l1 l2,
      minPair D emp (normalizeEntry e1) (normalizeEntry e2) = some (δ, l1, l2) ∧
      List.lookup m t'.vocab = some (if δ > (d1 + d2) * th
        then Entry.syns (normalizeEntry e1 ++ normalizeEntry e2)
        else Entry.single ⟨l1.phonemes ++ l2.phonemes, l1.meaning, l1.language_code⟩) := by
  have hie1 : c1.vocab.isEmpty = false := by
    rcases hc : c1.vocab with _ | ⟨a, t⟩
    · exact absurd hc hne1
    · rfl
  have hie2 : c2.vocab.isEmpty = false := by
    rcases hc : c2.vocab with _ | ⟨a, t⟩
    · exact absurd hc hne2
    · rfl
  have hch : reconstructChildren D emp th [(d1, c1), (d2, c2)] =
      some [(d1, c1), (d2, c2)] := by
    rw [reconstructChildren, reconstructChildren, reconstructChildren]
    simp [hie1, hie2]
  rw [reconstruct_language, hch] at hrec
  rcases hfold : ((meaningsOf c1.vocab).dedup).filter
      (fun w => (meaningsOf c2.vocab).contains w)
      |>.foldlM (reconstructStep D emp th (d1 + d2) d1 d2) (v, c1, c2) with _ | res <;>
    simp only [hfold] at hrec
  · cases hrec
  · have hmem : m ∈ ((meaningsOf c1.vocab).dedup).filter
        (fun w => (meaningsOf c2.vocab).contains w) := by
      apply List.mem_filter.mpr
      refine ⟨List.mem_dedup.mpr ?_, (lookup_isSome_iff_contains c2.vocab m).mp ⟨e2, h2⟩⟩
      exact mem_fst_of_lookup_isSome c1.vocab m ⟨e1, h1⟩
    obtain ⟨δ, l1, l2, hmp, hlook⟩ :=
      reconstructFold_entry D emp th (d1 + d2) d1 d2 _ (v, c1, c2) res m e1 e2
        ((List.nodup_dedup _).filter _) hmem h1 h2 hfold
    refine ⟨δ, l1, l2, hmp, ?_⟩
    rw [← Option.some.inj hrec]
    exact hlook

/-! ### Concrete reconstruction evaluation (C2 and the C7 witness) -/

/-- The all-zero phoneme distance lookup used in the concrete runs. -/
def D0 : Phoneme → Phoneme → ℚ := fun _ _ => 0

/-- A concrete lexeme for the meaning "one". -/
def lexT : Lexeme := ⟨[pW1], "one", "aa"⟩

/-- A concrete lexeme for the meaning "two". -/
def lexM : Lexeme := ⟨[pW2], "two", "bb"⟩

/-- First child: vocabulary with the single meaning "one". -/
def cA : LTree := .node [("one", .single lexT)] []

/-- Second child: vocabulary with the meanings "one" and "two". -/
def cB : LTree := .node [("one", .single lexT), ("two", .single lexM)] []

/-- The internal node with the two children and zero branch lengths. -/
def tC2 : LTree := .node [] [(0, cA), (0, cB)]

/-- The proto-lexeme merged from lexT with itself. -/
def protoW : Lexeme := ⟨[pW1, pW1], "one", "aa"⟩

/-- The tree produced by reconstruct_language on tC2. -/
def tC2res : LTree := .node [("one", .single protoW)] [(0, cA), (0, cB)]

theorem calc_D0_zero : calculate_lexeme_distance D0 empW [pW1] [pW1] = 0 := by
  rw [calculate_lexeme_distance_eq_specTable]
  have s00 : specTable D0 empW [pW1] [pW1] 0 0 = 0 := by rw [specTable]
  have s10 : specTable D0 empW [pW1] [pW1] 1 0 = 0 := by
    rw [specTable, s00]
    simp [D0]
  have s01 : specTable D0 empW [pW1] [pW1] 0 1 = 0 := by
    rw [specTable, s00]
    simp [D0]
  have s11 : specTable D0 empW [pW1] [pW1] 1 1 = 0 := by
    rw [specTable, s10, s01, s00]
    simp [D0]
  simp only [List.length_singleton]
  rw [s11]
  simp

theorem minPair_eval : minPair D0 empW [lexT] [lexT] = some (0, lexT, lexT) := by
  rw [minPair]
  simp only [List.flatMap_cons, List.map_cons, List.map_nil, List.flatMap_nil,
    List.append_nil, List.foldl_cons, List.foldl_nil]
  rw [show lexT.phonemes = [pW1] from rfl]
  rw [calc_D0_zero]

theorem setDescA_eval :
    set_lexeme_to_descendants "one" (reconstruct_lexeme lexT lexT 0 0) lexT cA =
      some cA := by
  show set_lexeme_to_descendants "one" (reconstruct_lexeme lexT lexT 0 0) lexT
    (.node [("one", .single lexT)] []) = some (.node [("one", .single lexT)] [])
  rw [set_lexeme_to_descendants,
    show List.lookup "one" [("one", Entry.single lexT)] = some (Entry.single lexT) by
      decide]

theorem setDescB_eval :
    set_lexeme_to_descendants "one" (reconstruct_lexeme lexT lexT 0 0) lexT cB =
      some cB := by
  show set_lexeme_to_descendants "one" (reconstruct_lexeme lexT lexT 0 0) lexT
    (.node [("one", .single lexT), ("two", .single lexM)] []) =
    some (.node [("one", .single lexT), ("two", .single lexM)] [])
  rw [set_lexeme_to_descendants,
    show List.lookup "one" [("one", Entry.single lexT), ("two", Entry.single lexM)] =
      some (Entry.single lexT) by decide]

theorem step_eval : reconstructStep D0 empW 2 (0 + 0) 0 0 ([], cA, cB) "one" =
    some ([("one", .single (reconstruct_lexeme lexT lexT 0 0))], cA, cB) := by
  rw [reconstructStep]
  rw [if_pos (show ((meaningsOf (([] : Vocab), cA, cB).2.1.vocab).contains "one" &&
    (meaningsOf (([] : Vocab), cA, cB).2.2.vocab).contains "one") = true by decide)]
  rw [show List.lookup "one" (([] : Vocab), cA, cB).2.1.vocab =
    some (Entry.single lexT) by decide]
  rw [show List.lookup "one" (([] : Vocab), cA, cB).2.2.vocab =
    some (Entry.single lexT) by decide]
  dsimp only [normalizeEntry]
  rw [minPair_eval]
  show (if (0 : ℚ) > (0 + 0) * 2
      then some (setEntry [] "one" (Entry.syns ([lexT] ++ [lexT])), cA, cB)
      else match set_lexeme_to_descendants "one" (reconstruct_lexeme lexT lexT 0 0)
          lexT cA with
        | none => none
        | some c1' =>
          match set_lexeme_to_descendants "one" (reconstruct_lexeme lexT lexT 0 0)
              lexT cB with
          | none => none
          | some c2' =>
            some (setEntry [] "one" (Entry.single (reconstruct_lexeme lexT lexT 0 0)),
              c1', c2')) =
    some ([("one", Entry.single (reconstruct_lexeme lexT lexT 0 0))], cA, cB)
  rw [if_neg (show ¬ (0 : ℚ) > (0 + 0) * 2 by norm_num)]
  rw [setDescA_eval, setDescB_eval]
  exact rfl

theorem reconstruct_tC2_eval :
    reconstruct_language D0 empW 2 tC2 = some tC2res := by
  have hch : reconstructChildren D0 empW 2 [(0, cA), (0, cB)] =
      some [(0, cA), (0, cB)] := by
    rw [reconstructChildren, reconstructChildren, reconstructChildren]
    rw [show cA.vocab.isEmpty = false from rfl, show cB.vocab.isEmpty = false from rfl]
    exact rfl
  show reconstruct_language D0 empW 2 (.node [] [(0, cA), (0, cB)]) = some tC2res
  rw [reconstruct_language, hch]
  dsimp only
  have hinter : ((meaningsOf cA.vocab).dedup).filter
      (fun m => (meaningsOf cB.vocab).contains m) = ["one"] := by decide
  rw [hinter]
  rw [List.foldlM_cons, step_eval]
  exact rfl

/-- C2: evaluating reconstruct_language at a node whose second child
carries the meaning "two" that the first child lacks: the loop iterates
only the intersection of the children's meanings, so the parent never
receives an entry for "two" (and the elif copy branches are dead code). -/
theorem c2_meaning_dropped :
    reconstruct_language D0 empW 2 tC2 = some tC2res ∧
    List.lookup "two" cB.vocab = some (.single lexM) ∧
    List.lookup "two" tC2res.vocab = none :=
  ⟨reconstruct_tC2_eval, by decide, by decide⟩

/-- C7 witness: the decision theorem applied at the concrete node, where
the minimum distance 0 does not exceed branch_sum times the threshold and
the merged proto-lexeme is installed. -/
theorem c7_witness :
    ∃ δ l1 l2,
      minPair D0 empW (normalizeEntry (.single lexT)) (normalizeEntry (.single lexT)) =
        some (δ, l1, l2) ∧
      List.lookup "one" tC2res.vocab = some (if δ > ((0 : ℚ) + 0) * 2
        then Entry.syns (normalizeEntry (.single lexT) ++ normalizeEntry (.single lexT))
        else Entry.single ⟨l1.phonemes ++ l2.phonemes, l1.meaning, l1.language_code⟩) :=
  c7_threshold_merge D0 empW 2 [] 0 0 cA cB "one" (.single lexT) (.single lexT) tC2res
    (by decide) (by decide) (by decide) (by decide) reconstruct_tC2_eval

/-! ### IPA parsing pipeline (app/operations/parser.py,
app/constructors/languages.py construct_languages) -/

/-- A tokenized IPA symbol: a letter with its accumulated modifier set. -/
structure IpaSymbol where
  letter : String
  modifiers : List Char
deriving DecidableEq

/-- The static tables consumed by the parsing pipeline, abstract read-only
inputs per the spec: the character replacement map, the letters table
(letter to feature codes), the modifiers table (modifier to action list),
the ignore set, the feature cache, and the dynamic dispatch
getattr(phoneme, action) to the Phoneme mutators, whose none models a
KeyError raised inside the mutator. -/
structure IpaEnv where
  replace : Char → Option Char
  letters : String → Option (List String)
  modifiers : Char → Option (List (String × String))
  ignore : Char → Bool
  featuresCache : String → Option Feature
  applyAction : String → Option Feature → Phoneme → Option Phoneme

/-- replace_non_ipa: map every character through the replacement table,
unknown characters pass through. -/
def replace_non_ipa (env : IpaEnv) (s : List Char) : List Char :=
  s.map (fun ch => (env.replace ch).getD ch)

/-- Python set.add on the current symbol's modifier set. -/
def addModifier (mods : List Char) (ch : Char) : List Char :=
  if mods.contains ch then mods else mods ++ [ch]

/-- One step of group_with_modifiers; the accumulator keeps the symbols in
reverse order so the head is the current symbol. -/
def groupStep (env : IpaEnv) (symbols : List IpaSymbol) (ch : Char) :
    Except String (List IpaSymbol) :=
  match symbols, (env.modifiers ch).isSome with
  | s :: rest, true => .ok (⟨s.letter, addModifier s.modifiers ch⟩ :: rest)
  | symbols, _ =>
    if (env.letters (String.singleton ch)).isSome then
      .ok (⟨String.singleton ch, []⟩ :: symbols)
    else if env.ignore ch then .ok symbols
    else .error (String.singleton ch)

/-- group_with_modifiers: left-to-right tokenization; an unknown character
raises ValueError (the IpaUnrecognized case). -/
def group_with_modifiers (env : IpaEnv) (chars : List Char) :
    Except String (List IpaSymbol) :=
  match chars.foldlM (groupStep env) [] with
  | .error e => .error e
  | .ok symbols => .ok symbols.reverse

/-- group_single_phoneme_symbols: merge two consecutive letters into a
digraph letter when their concatenation is in the letters table, taking
the union of the modifier sets. -/
def group_single_phoneme_symbols (env : IpaEnv) : List IpaSymbol → List IpaSymbol
  | s1 :: s2 :: rest =>
    if (env.letters (s1.letter ++ s2.letter)).isSome then
      ⟨s1.letter ++ s2.letter,
        s1.modifiers ++ s2.modifiers.filter (fun c => !(s1.modifiers.contains c))⟩ ::
        group_single_phoneme_symbols env rest
    else s1 :: group_single_phoneme_symbols env (s2 :: rest)
  | l => l

/-- symbol_to_phoneme: look up the base feature codes of the letter, build
the phoneme, then apply every modifier's actions in order; any missing
table entry is a KeyError (the IpaLookupMissing case). -/
def symbol_to_phoneme (env : IpaEnv) (symbol : IpaSymbol) : Except Unit Phoneme := do
  let codes ← match env.letters symbol.letter with
    | some cs => Except.ok cs
    | none => Except.error ()
  let features ← codes.mapM (fun code => match env.featuresCache code with
    | some f => Except.ok f
    | none => Except.error ())
  let init : Phoneme := ⟨features, symbol.letter ++ String.mk symbol.modifiers⟩
  symbol.modifiers.foldlM (fun ph mod => do
    let actions ← match env.modifiers mod with
      | some info => Except.ok info
      | none => Except.error ()
    actions.foldlM (fun ph act =>
      if act.2.length > 0 then
        match env.featuresCache act.2 with
        | none => Except.error ()
        | some arg =>
          match env.applyAction act.1 (some arg) ph with
          | some ph2 => Except.ok ph2
          | none => Except.error ()
      else
        match env.applyAction act.1 none ph with
        | some ph2 => Except.ok ph2
        | none => Except.error ()) ph) init

/-- ipa_string_to_lexeme: the four parsing stages; a tokenization
ValueError propagates to the caller, while a KeyError during phoneme
construction is caught, printed, and the function falls through returning
None. -/
def ipa_string_to_lexeme (env : IpaEnv) (s : List Char)
    (meaning language_code : String) : Except String (Option Lexeme) :=
  match group_with_modifiers env (replace_non_ipa env s) with
  | .error e => .error e
  | .ok symbols =>
    match (group_single_phoneme_symbols env symbols).mapM (symbol_to_phoneme env) with
    | .error _ => .ok none
    | .ok phonemes => .ok (some ⟨phonemes, meaning, language_code⟩)

/-- The per-row lexeme loop of construct_languages: skip empty cells, skip
cells whose parse raises ValueError, and append whatever
ipa_string_to_lexeme returned otherwise; only a ValueError is caught, so a
None return from the KeyError path is appended as-is. -/
def construct_language_lexemes (env : IpaEnv) (language_code : String)
    (cells : List (String × List Char)) : List (Option Lexeme) :=
  cells.foldr (fun cell acc =>
    if cell.2.isEmpty then acc
    else match ipa_string_to_lexeme env cell.2 cell.1 language_code with
      | .error _ => acc
      | .ok v => v :: acc) []

/-- The alveolar feature present in the concrete feature cache. -/
def fAL : Feature := ⟨"Alveolar", "AL", "place", 1⟩

/-- A concrete environment whose letters table knows "t" (feature code AL,
present in the cache) and "a" (feature code QQ, missing from the cache). -/
def envW : IpaEnv :=
  { replace := fun _ => none
    letters := fun s => if s = "t" then some ["AL"]
      else if s = "a" then some ["QQ"] else none
    modifiers := fun _ => none
    ignore := fun _ => false
    featuresCache := fun c => if c = "AL" then some fAL else none
    applyAction := fun _ _ _ => none }

/-- C3: the IPA string "ta" tokenizes successfully, but the letter "a"
resolves to a feature code with no cache entry (IpaLookupMissing):
ipa_string_to_lexeme returns None instead of raising, and the
construct_languages loop appends that None to the row's lexeme list, so
the list holds a null placeholder rather than skipping the lexeme. -/
theorem c3_none_appended :
    ipa_string_to_lexeme envW ['t', 'a'] "one" "xx" = .ok none ∧
    construct_language_lexemes envW "xx" [("one", ['t', 'a'])] = [none] ∧
    (none : Option Lexeme) ∈ construct_language_lexemes envW "xx" [("one", ['t', 'a'])] := by
  refine ⟨rfl, rfl, ?_⟩
  rw [show construct_language_lexemes envW "xx" [("one", ['t', 'a'])] =
    [none] from rfl]
  exact List.mem_singleton.mpr rfl

end Protolang
